import Mathlib

/-!
Verification of the OpenRange repository's range/segment core.

Shallow embedding notes.

Numbers: the Python code works with `int` and `float` values but routes all
iteration arithmetic through exact `Decimal` values built from the decimal
string form of each number (see `rangetools/base.py` `Range.__iter__`,
`openrange/base.py`, and the `str()`-keyed grouping in `_items_to_ranges`).
We model every number as `ℚ` (exact rational arithmetic); the `int`/`float`
distinction of Python objects is collapsed, matching the spec's stated
numeric semantics ("all internal arithmetic uses an exact decimal
representation").  For rendering (`str`), a value with a fractional part is
necessarily a Python `float` and is rendered with `str(float)`'s
positional/scientific rule (scientific exactly when the decimal exponent is
below `-4` or at least `16`); an integral value is rendered as a Python
`int` (always positional), which is the one place the collapse is visible
(an integral `float` such as `1.0` would render as `'1.0'`).

`rangetools/base.py` is the variant cited by most claims; `frange/__init__.py`
and `openrange/list_.py` contain textually identical copies of the compaction
algorithm (`_items_to_ranges` / `_segments_from_frames`).  The `repeat` and
`wrap` constructor arguments of `rangetools.Range` keep their default values
(`repeat=1`, `wrap=False`) everywhere the claims touch (parsing, compaction,
collections), so the embedded `Range` carries only `start`, `stop`, `step`,
and `Range.__iter__` with `repeat=1` reduces to the do-while loop modeled by
`rangeIterAux`.

Loops: `while` loops whose termination is provable are embedded as
well-founded recursions (`rangeIterAux`).  Loops that the claims must
evaluate inside the kernel (the compaction passes) are embedded with an
explicit fuel counter that is instantiated, at each call site, with a bound
that dominates the loop's true iteration count, so that exhaustion is
unreachable; loops whose termination is itself in question (openrange
`BaseRange._iter`, frange `_range`) are embedded with fuel so that
non-termination is expressible (`none` for every fuel value).
-/

namespace OpenRangeSpec

/-- rangetools `Range`: the plain attribute record held by a constructed
`Range` object (`self._start`, `self._stop`, `self._step`). -/
structure Range where
  start : ℚ
  stop : ℚ
  step : ℚ
deriving DecidableEq, Repr

/-- rangetools `Range.__init__` with default `stop=None`, `step=1`:
`stop is None` defaults it to `start`; a zero step raises `ValueError`
("Range step cannot be 0."). `repeat`/`wrap` keep their defaults. -/
def rangeInit (start : ℚ) (stop : Option ℚ) (step : ℚ) : Except Unit Range :=
  let stop := stop.getD start
  if step = 0 then .error () else .ok ⟨start, stop, step⟩

/-- rangetools `Range.__iter__` (with `repeat=1`, `wrap=False`): the do-while
loop body.  It yields the current item, advances by `step`, and stops as soon
as the advanced value passes `stop` in the travel direction
(`step > 0 and item > stop` or `step < 0 and item < stop`). -/
def rangeIterAux (stop step : ℚ) (h : step ≠ 0) (i : ℚ) : List ℚ :=
  i :: (if (0 < step ∧ stop < i + step) ∨ (step < 0 ∧ i + step < stop) then []
        else rangeIterAux stop step h (i + step))
termination_by (⌊(stop - i) / step⌋ + 1).toNat
decreasing_by
  rename_i hcont
  push_neg at hcont
  have hq : (stop - (i + step)) / step = (stop - i) / step - 1 := by
    rw [show stop - (i + step) = (stop - i) - step by ring, sub_div, div_self h]
  have hone : (1 : ℚ) ≤ (stop - i) / step := by
    rcases lt_or_gt_of_ne h with hneg | hpos
    · have hle : stop ≤ i + step := hcont.2 hneg
      exact (one_le_div_of_neg hneg).mpr (by linarith)
    · have hle : i + step ≤ stop := hcont.1 hpos
      exact (one_le_div hpos).mpr (by linarith)
  have hfloor : (1 : ℤ) ≤ ⌊(stop - i) / step⌋ := by
    exact_mod_cast Int.le_floor.mpr (by exact_mod_cast hone)
  have : ⌊(stop - (i + step)) / step⌋ = ⌊(stop - i) / step⌋ - 1 := by
    rw [hq, Int.floor_sub_one]
  omega

/-- Items yielded by iterating a `Range` object.  A `Range` with `step = 0`
is not constructible through `Range.__init__`; the `[]` result on that dead
branch keeps the function total. -/
def rangeItems (r : Range) : List ℚ :=
  if h : r.step = 0 then [] else rangeIterAux r.stop r.step h r.start

/-- `RangeList.__iter__`: flattening a list of ranges yields each contained
range's items in collection order. -/
def flattenRanges (rs : List Range) : List ℚ :=
  (rs.map rangeItems).flatten

/-! ## Spec-string parsing (rangetools `_parse_range_str` / `_spec_to_ranges`)

The token grammar is `RANGE_SPEC_REGEX`:
`^((NUM)|(NUM-NUM)|(NUM-NUM:NUM))$` with `NUM = ([+-]?(\d+\.?|\d*\.\d+))`.
An anchored backtracking regex of this shape matches a token exactly when the
token belongs to one of the three alternative languages, and the alternatives
are tried left to right; the `NUM-NUM` decomposition, when it exists, is
unique (a `NUM` never contains an interior dash), so a first-match split
search reproduces the regex semantics. -/

/-- A decimal digit character.  (Written as an equality test rather than via
`Char.isDigit`, so that rewriting can evaluate it on literals.) -/
def isDigitC (c : Char) : Bool :=
  c = '0' || c = '1' || c = '2' || c = '3' || c = '4' ||
  c = '5' || c = '6' || c = '7' || c = '8' || c = '9'

/-- Body of `NUM` after the optional sign: `\d+\.?` or `\d*\.\d+`
(an anchored full match). -/
def isNumBody (cs : List Char) : Bool :=
  let ds := cs.takeWhile isDigitC
  match cs.dropWhile isDigitC with
  | [] => !ds.isEmpty
  | c :: frac =>
    c = '.' && ((!ds.isEmpty && frac.isEmpty) || (!frac.isEmpty && frac.all isDigitC))

/-- `NUM = [+-]?(\d+\.?|\d*\.\d+)`, anchored full match. -/
def isNum (cs : List Char) : Bool :=
  match cs with
  | [] => false
  | c :: rest => if c = '+' || c = '-' then isNumBody rest else isNumBody cs

/-- Value of a digit character (as an evaluable table). -/
def digitVal (c : Char) : ℕ :=
  if c = '0' then 0 else if c = '1' then 1 else if c = '2' then 2 else
  if c = '3' then 3 else if c = '4' then 4 else if c = '5' then 5 else
  if c = '6' then 6 else if c = '7' then 7 else if c = '8' then 8 else 9

/-- Value of a big-endian digit string (leading zeros allowed, as in Python
`int("007")`). -/
def digitsVal (ds : List Char) : ℕ :=
  ds.foldl (fun a c => 10 * a + digitVal c) 0

/-- Numeric value of a `NUM` body: `int(s)` when `s` has no dot, else
`float(s)`, both exact over `ℚ`. -/
def numBodyVal (cs : List Char) : ℚ :=
  let ds := cs.takeWhile isDigitC
  match cs.dropWhile isDigitC with
  | c :: frac =>
    if c = '.' then (digitsVal ds : ℚ) + (digitsVal frac : ℚ) / (10 : ℚ) ^ frac.length
    else (digitsVal ds : ℚ)
  | _ => (digitsVal ds : ℚ)

/-- rangetools `_str_to_num` on a `NUM` token (sign, then body). -/
def numVal (cs : List Char) : ℚ :=
  match cs with
  | [] => numBodyVal []
  | c :: rest =>
    if c = '+' then numBodyVal rest
    else if c = '-' then -numBodyVal rest
    else numBodyVal cs

/-- Split a token at its first `:` (a `NUM` never contains a colon, so at most
one split can yield a regex match). -/
def colonSplit : List Char → Option (List Char × List Char)
  | [] => none
  | c :: rest =>
    if c = ':' then some ([], rest)
    else (colonSplit rest).map (fun p => (c :: p.1, p.2))

/-- First decomposition `tok = l ++ '-' :: r` with `l` and `r` both `NUM`
(the accumulator holds the reversed scanned part). -/
def rangeSplit : List Char → List Char → Option (List Char × List Char)
  | _, [] => none
  | pre, c :: rest =>
    if c = '-' && isNum pre.reverse && isNum rest then some (pre.reverse, rest)
    else rangeSplit (c :: pre) rest

/-- Errors raised while building ranges from a spec string:
`SyntaxError` (naming the offending token) from `_parse_range_str`,
`ValueError` from `Range.__init__` (zero step). -/
inductive ParseErr where
  | syntaxErr (tok : List Char)
  | valueErr
deriving DecidableEq, Repr

/-- Python's `$` anchor also matches just before one newline at the very end
of the string, so `RANGE_SPEC_REGEX` accepts `CORE` and `CORE ++ "\n"` (and
nothing else: two trailing newlines fail, and the capturing groups never
include the newline).  Matching the anchored regex is therefore matching the
core alternatives on the token with one trailing newline removed. -/
def stripTrailNl (cs : List Char) : List Char :=
  if cs.getLast? = some '\n' then cs.dropLast else cs

/-- rangetools `_parse_range_str`: match the token against the three regex
alternatives, in order (after discounting the single trailing newline that
the `$` anchor tolerates), and extract `(start, stop, step)` from the
capturing groups; a failed match raises `SyntaxError` naming the token. -/
def parseRangeStr (tok : List Char) : Except ParseErr (ℚ × ℚ × ℚ) :=
  if isNum (stripTrailNl tok) then
    .ok (numVal (stripTrailNl tok), numVal (stripTrailNl tok), 1)
  else
    match colonSplit (stripTrailNl tok) with
    | none =>
      match rangeSplit [] (stripTrailNl tok) with
      | some (a, b) => .ok (numVal a, numVal b, 1)
      | none => .error (.syntaxErr tok)
    | some (l, r) =>
      match rangeSplit [] l with
      | some (a, b) =>
        if isNum r then .ok (numVal a, numVal b, numVal r)
        else .error (.syntaxErr tok)
      | none => .error (.syntaxErr tok)

/-- The claim's token grammar `NUMBER | NUMBER-NUMBER | NUMBER-NUMBER:NUMBER`,
stated from the spec's words for comparison with the program: unlike the
anchored regex, it makes no allowance for a trailing newline. -/
def grammarMatch (tok : List Char) : Bool :=
  isNum tok ||
    match colonSplit tok with
    | none => (rangeSplit [] tok).isSome
    | some (l, r) => (rangeSplit [] l).isSome && isNum r

/-- One token of `_spec_to_ranges`: parse it and construct the `Range`
(whose constructor rejects a zero step with `ValueError`). -/
def tokenToRange (tok : List Char) : Except ParseErr Range :=
  match parseRangeStr tok with
  | .error e => .error e
  | .ok (a, b, s) => if s = 0 then .error .valueErr else .ok ⟨a, b, s⟩

/-- Split at every comma (`re.split` always returns one part more than the
number of separator matches). -/
def splitComma : List Char → List (List Char)
  | [] => [[]]
  | c :: rest =>
    if c = ',' then [] :: splitComma rest
    else
      match splitComma rest with
      | [] => [[c]]
      | t :: ts => (c :: t) :: ts

/-- Python `\s` (ASCII). -/
def isSpace (c : Char) : Bool :=
  c = ' ' || c = '\t' || c = '\n' || c = '\r' || c = '\x0b' || c = '\x0c'

def trimLead (cs : List Char) : List Char := cs.dropWhile isSpace

def trimTrail (cs : List Char) : List Char := (cs.reverse.dropWhile isSpace).reverse

/-- Trim whitespace adjacent to a separator on the non-first parts' left edges
and the non-last parts' right edges. -/
def trimInner : List (List Char) → List (List Char)
  | [] => []
  | [t] => [trimLead t]
  | t :: rest => trimLead (trimTrail t) :: trimInner rest

/-- `SPEC_SEPARATOR_REGEX.split`, i.e. `re.split("\s*,\s*", spec)`: split on
commas and discard the whitespace hugging each comma (whitespace at the very
start or end of the whole spec is kept). -/
def splitSpec (spec : List Char) : List (List Char) :=
  match splitComma spec with
  | [] => []
  | [t] => [t]
  | t :: rest => trimTrail t :: trimInner rest

/-- The token loop of `_spec_to_ranges`: ranges are appended token by token
and the first exception aborts the whole call. -/
def tokensToRanges : List (List Char) → Except ParseErr (List Range)
  | [] => .ok []
  | tok :: rest =>
    match tokenToRange tok with
    | .error e => .error e
    | .ok r =>
      match tokensToRanges rest with
      | .error e => .error e
      | .ok rs => .ok (r :: rs)

/-- rangetools `_spec_to_ranges`. -/
def specToRanges (spec : List Char) : Except ParseErr (List Range) :=
  tokensToRanges (splitSpec spec)

/-! ## Stringification (rangetools `Range.__str__`, `RangeList.__str__`)

`Range.__str__` renders `str(start)` when the start and stop strings agree,
otherwise `"start-stop"` with `":step"` appended when `step != 1`; the
`repeat != 1` suffix never fires for default-repeat ranges.  The numbers are
rendered with Python `str`: an `int` is always positional, while a `float`
uses the shortest-digits form with scientific notation exactly when the
decimal exponent is below `-4` or at least `16` (`str(0.00001) = '1e-05'`,
`str(1e16) = '1e+16'`).  A value with a fractional part is necessarily a
`float`; for integral values the model keeps the header's `int`/`float`
collapse and renders them as ints (positionally, without a decimal point). -/

/-- Character of a decimal digit value. -/
def digitChar (d : ℕ) : Char :=
  if d = 0 then '0' else if d = 1 then '1' else if d = 2 then '2' else
  if d = 3 then '3' else if d = 4 then '4' else if d = 5 then '5' else
  if d = 6 then '6' else if d = 7 then '7' else if d = 8 then '8' else '9'

/-- Big-endian decimal digits of `n` (with `natCharsAux` driven by a fuel
argument instantiated at `n` itself, which dominates the digit count). -/
def natCharsAux : ℕ → ℕ → List Char
  | 0, _ => []
  | _ + 1, 0 => []
  | fuel + 1, n + 1 => natCharsAux fuel ((n + 1) / 10) ++ [digitChar ((n + 1) % 10)]

/-- `str` of a natural number. -/
def natChars (n : ℕ) : List Char :=
  if n = 0 then ['0'] else natCharsAux n n

/-- Smallest `k ≤ den` with `den ∣ 10 ^ k` (exists whenever `den` divides a
power of ten, i.e. for every number produced by parsing). -/
def decExp (den : ℕ) : ℕ :=
  ((List.range (den + 1)).find? (fun k => 10 ^ k % den = 0)).getD 0

/-- `str` of a nonnegative number: integer part, and (for a non-integer
value) the exact decimal fraction digits, zero-padded on the left to the full
decimal width. -/
def posNumStr (a : ℚ) : List Char :=
  let ip : ℕ := (⌊a⌋).toNat
  let fp : ℚ := a - ⌊a⌋
  if fp = 0 then natChars ip
  else
    let k := decExp fp.den
    let ds := natChars ((fp * (10 : ℚ) ^ k).num).toNat
    natChars ip ++ '.' :: (List.replicate (k - ds.length) '0' ++ ds)

/-- Decimal exponent of a positive number: `floor (log10 a)`, the exponent
`e` of the normalized form `d.ddd * 10^e` that Python float formatting uses
to choose between positional and scientific notation. -/
def decExponent (a : ℚ) : ℤ := Int.log 10 a

/-- Exponent digits of `str(float)` scientific notation: at least two digits
(`1e-05`, `1e+16`); the sign is handled by the caller. -/
def expDigits (n : ℕ) : List Char :=
  if n < 10 then '0' :: natChars n else natChars n

/-- Scientific rendering of a positive number, as `str(float)` produces when
the decimal exponent is below `-4` or at least `16`: normalized mantissa in
`[1, 10)` (an integral mantissa keeps no trailing `.0`: `str(1e-05)` is
`'1e-05'`), then `e`, an explicit exponent sign, and the exponent digits. -/
def sciStr (a : ℚ) : List Char :=
  posNumStr (a / (10 : ℚ) ^ decExponent a) ++
    'e' :: (if decExponent a < 0 then '-' else '+') :: expDigits (decExponent a).natAbs

/-- `str` of a nonnegative number.  An integral value is rendered as a Python
`int`: always positional (the header's `int`/`float` collapse for integral
values).  A value with a fractional part is necessarily a Python `float`,
whose `str` switches to scientific notation when the decimal exponent is
below `-4` or at least `16`, and is positional otherwise. -/
def numToStrAbs (a : ℚ) : List Char :=
  if a - ⌊a⌋ = 0 then natChars (⌊a⌋).toNat
  else if decExponent a < -4 ∨ 16 ≤ decExponent a then sciStr a
  else posNumStr a

/-- `str` of a number: optional sign and the rendering of its magnitude. -/
def numToStr (q : ℚ) : List Char :=
  if q < 0 then '-' :: numToStrAbs (-q) else numToStrAbs q

/-- rangetools `Range.__str__` (with default `repeat`). -/
def rangeStr (r : Range) : List Char :=
  if numToStr r.start = numToStr r.stop then numToStr r.start
  else
    numToStr r.start ++ '-' :: numToStr r.stop ++
      (if r.step = 1 then [] else ':' :: numToStr r.step)

/-- Python `",".join`. -/
def joinSep : List (List Char) → List Char
  | [] => []
  | [p] => p
  | p :: rest => p ++ ',' :: joinSep rest

/-- rangetools `RangeList.__str__` with the default separator. -/
def rangeListStr (rs : List Range) : List Char :=
  joinSep (rs.map rangeStr)

/-! ## Compaction (rangetools `_items_to_ranges`)

`_items_to_ranges` deduplicates and sorts the items, computes the set of
consecutive differences as candidate steps, and then, for each candidate
step, repeatedly groups the *current* item list with
`groupby(items, lambda f, c=count(step=step): str(next(c)-f))`, turning every
group of three or more items into a `Range` and removing its members from the
list — while the `groupby` iteration over that same list is still running.

The `list.remove` calls inside the loop shift the tail of the list under the
live list iterator: removing the `g` members of a finished group (all of
which sit before the iterator's index) makes the iterator skip the next `g`
unread elements of the list.  The model reproduces this exactly: `collect`
gathers one key-group (returning the lookahead element that ended it), and
`passLoopN` drops `g` unread elements whenever a group of `g ≥ 3` members was
turned into a range.  Elements skipped this way are never read during the
pass, but remain in the list for the next pass; the list surviving a pass is
the original minus all grouped members, in order (`List.filter` below, which
agrees with repeated `list.remove` because the list is duplicate-free).

The `str()` applied to the offset key is a canonical decimal rendering, so
over `ℚ` key equality is value equality.  Python iterates `set(steps)` in an
implementation-defined order; the model fixes the first-occurrence order of
the distinct consecutive differences.  Every theorem below either holds for
any such order or (for the concrete `[1,4,5,6,7,9,11]` run) has been checked
to produce the same output under CPython's actual order `[1,2,3]`.

The pass loops run on explicit fuel picked to dominate the loop's iteration
count: `passLoopN` advances past at least one list element or the pending
lookahead per round, so `length + 2` rounds suffice; each productive
`while ranges_found` round removes at least three items, so `length + 1`
rounds suffice for `stepPassesN`. -/

/-- `sorted(list(set(items)))`. -/
def dedupSort (items : List ℚ) : List ℚ :=
  List.insertionSort (· ≤ ·) items.dedup

/-- Consecutive differences `items[i] - items[i-1]` over the sorted list. -/
def diffs : List ℚ → List ℚ
  | a :: b :: rest => (b - a) :: diffs (b :: rest)
  | _ => []

/-- Gather one `groupby` group: `acc` holds the members read so far, `k` the
group key, `cnt` the `count` value to be consumed by the next key call.
Returns the group, the lookahead element (with its key) that ended it, the
remaining unread elements, and the advanced counter. -/
def collect (s k : ℚ) : List ℚ → List ℚ → ℚ → List ℚ × Option (ℚ × ℚ) × List ℚ × ℚ
  | acc, [], cnt => (acc, none, [], cnt)
  | acc, x :: rest, cnt =>
    if cnt - x = k then collect s k (acc ++ [x]) rest (cnt + s)
    else (acc, some (cnt - x, x), rest, cnt + s)

/-- One `for key, group in groupby(...)` pass for candidate step `s`,
including the iterator-shifting effect of the removals (see above).
Returns the groups of three or more members found during the pass. -/
def passLoopN (s : ℚ) : ℕ → List ℚ → Option (ℚ × ℚ) → ℚ → List (List ℚ) → List (List ℚ)
  | 0, _, _, _, grps => grps
  | fuel + 1, unread, pending, cnt, grps =>
    match pending with
    | some (k, v) =>
      let res := collect s k [v] unread cnt
      if 3 ≤ res.1.length then
        passLoopN s fuel (res.2.2.1.drop res.1.length) res.2.1 res.2.2.2 (grps ++ [res.1])
      else
        passLoopN s fuel res.2.2.1 res.2.1 res.2.2.2 grps
    | none =>
      match unread with
      | [] => grps
      | x :: rest =>
        let res := collect s (cnt - x) [x] rest (cnt + s)
        if 3 ≤ res.1.length then
          passLoopN s fuel (res.2.2.1.drop res.1.length) res.2.1 res.2.2.2 (grps ++ [res.1])
        else
          passLoopN s fuel res.2.2.1 res.2.1 res.2.2.2 grps

/-- All groups found by one full `groupby` pass over `items`. -/
def passGroups (s : ℚ) (items : List ℚ) : List (List ℚ) :=
  passLoopN s (items.length + 2) items none 0 []

/-- The `while ranges_found` loop for one candidate step: run passes until a
pass finds no group, removing each found group's members from the list
between passes.  Returns all groups found and the surviving list. -/
def stepPassesN (s : ℚ) : ℕ → List ℚ → List (List ℚ) × List ℚ
  | 0, items => ([], items)
  | fuel + 1, items =>
    let grps := passGroups s items
    if grps.isEmpty then ([], items)
    else
      let items2 := items.filter (fun x => !decide (x ∈ grps.flatten))
      let res := stepPassesN s fuel items2
      (grps ++ res.1, res.2)

def stepPasses (s : ℚ) (items : List ℚ) : List (List ℚ) × List ℚ :=
  stepPassesN s (items.length + 1) items

/-- The `for step in set(steps)` loop: run the pass loop for each candidate
step on the list left over by the previous steps, turning each group into
`Range(group[0], stop=group[-1], step=step)`. -/
def stepLoop : List ℚ → List ℚ → List Range × List ℚ
  | [], items => ([], items)
  | s :: stepsRest, items =>
    let pr := stepPasses s items
    let rs := pr.1.map (fun g => Range.mk (g.headD 0) (g.getLastD 0) s)
    let res := stepLoop stepsRest pr.2
    (rs ++ res.1, res.2)

/-- `_items_to_ranges` on the already deduplicated and sorted list. -/
def itemsToRangesCore (l : List ℚ) : List Range :=
  let pr := stepLoop (diffs l).dedup l
  List.insertionSort (fun a b => a.start ≤ b.start)
    (pr.1 ++ pr.2.map (fun q => Range.mk q q 1))

/-- rangetools `_items_to_ranges`: dedup + sort, find stepped groups, wrap
remaining items as singleton ranges, and sort everything by start. -/
def itemsToRanges (items : List ℚ) : List Range :=
  itemsToRangesCore (dedupSort items)

/-- rangetools `RangeList.compact`: re-run the compactor on the flattened
item list, replacing the whole range list. -/
def compactRangeList (rl : List Range) : List Range :=
  itemsToRanges (flattenRanges rl)

/-! ## openrange `BaseRange` (openrange/base.py)

The conversion hooks `_item_to_num` / `_num_to_item` are identities in the
numeric model (the numeric `Range` subclass round-trips each number through
`Decimal`, which is exact).  Python-level errors are represented by
`PyErr`. -/

inductive PyErr where
  | valueError
  | typeError
  | indexError
deriving DecidableEq, Repr

structure BaseRange where
  start : ℚ
  stop : ℚ
  step : ℚ
deriving DecidableEq, Repr

/-- `BaseRange.__init__`: positional arguments mimic the built-in `range()`
(one argument is the *stop*, with `start = 0` and `step = 1`); a zero step
raises `ValueError`. -/
def baseRangeInit (args : List ℚ) : Except PyErr BaseRange :=
  match args with
  | [stop] => .ok ⟨0, stop, 1⟩
  | [start, stop] => .ok ⟨start, stop, 1⟩
  | [start, stop, step] => if step = 0 then .error .valueError else .ok ⟨start, stop, step⟩
  | _ => .error .typeError

/-- `self._in_range`: chosen at construction from the sign of the step. -/
def inRangeB (r : BaseRange) (i : ℚ) : Bool :=
  if 0 < r.step then decide (r.start ≤ i ∧ i ≤ r.stop)
  else decide (i ≤ r.start ∧ r.stop ≤ i)

/-- `BaseRange._iter` (`while self._in_range(i): yield i; i += self._step`),
with fuel: `none` means the loop is still running after `fuel` rounds, so the
loop terminates on an input exactly when some fuel returns `some`. -/
def baseIterFuel (r : BaseRange) : ℕ → ℚ → Option (List ℚ)
  | 0, _ => none
  | fuel + 1, i =>
    if inRangeB r i then (baseIterFuel r fuel (i + r.step)).map (i :: ·)
    else some []

/-- `Decimal.quantize(Decimal('1'), rounding=ROUND_HALF_UP)`: round to the
nearest integer, ties away from zero. -/
def roundHalfUp (q : ℚ) : ℤ :=
  if q < 0 then -⌊-q + 1 / 2⌋ else ⌊q + 1 / 2⌋

/-- `BaseRange.__len__`: round `(stop - start) / step` half-up and add 1 only
when the step divides the difference exactly (`diff % step == 0`). -/
def baseLen (r : BaseRange) : ℤ :=
  let q := (r.stop - r.start) / r.step
  roundHalfUp q + (if q.den = 1 then 1 else 0)

/-- `BaseRange.__getitem__` on an integer index: add `len(self)` to a
negative index, raise `IndexError` when the result is `>= len(self)`, and
otherwise return `index * step + start`.  (CPython's `len()` itself raises
`ValueError` whenever `__len__` returns a negative number, modeled by the
leading guard.) -/
def baseGetItem (r : BaseRange) (index : ℤ) : Except PyErr ℚ :=
  if baseLen r < 0 then .error .valueError
  else
    let index := if index < 0 then index + baseLen r else index
    if baseLen r ≤ index then .error .indexError
    else .ok ((index : ℚ) * r.step + r.start)

/-! ## frange `_range` (frange/__init__.py)

```
def _range(start, stop, step=1):
    i = start
    if start == stop: yield start
    elif stop > start:
        while i <= stop: yield i; i += step
    else:
        while i >= stop: yield i; i += step
```
Both `while` branches ignore the step's sign, so a step pointing away from
`stop` never exits.  Fuel semantics as in `baseIterFuel`. -/

def frangeUpFuel (stop step : ℚ) : ℕ → ℚ → Option (List ℚ)
  | 0, _ => none
  | fuel + 1, i =>
    if i ≤ stop then (frangeUpFuel stop step fuel (i + step)).map (i :: ·)
    else some []

def frangeDownFuel (stop step : ℚ) : ℕ → ℚ → Option (List ℚ)
  | 0, _ => none
  | fuel + 1, i =>
    if stop ≤ i then (frangeDownFuel stop step fuel (i + step)).map (i :: ·)
    else some []

def frangeRangeFuel (start stop step : ℚ) (fuel : ℕ) : Option (List ℚ) :=
  if start = stop then some [start]
  else if start < stop then frangeUpFuel stop step fuel start
  else frangeDownFuel stop step fuel start

/-- frange `_range` terminates on `(start, stop, step)` when some amount of
fuel completes the loop. -/
def frangeTerminates (start stop step : ℚ) : Prop :=
  ∃ fuel, (frangeRangeFuel start stop step fuel).isSome = true

/-! ## rangetools `RangeList` argument conversion (`_arg_to_ranges`)

An argument is another `RangeList` (its ranges are copied), a single `Range`,
a spec string, a bare number, or a nested list of any of these; conversion
recursively builds the complete list of ranges *before* any mutation of the
collection happens, so `extend` either appends the fully converted list or
raises without touching the collection. -/

inductive RArg where
  | rng (r : Range)
  | rlist (rs : List Range)
  | strSpec (s : List Char)
  | num (q : ℚ)
  | nested (args : List RArg)

mutual
/-- rangetools `_arg_to_ranges`. -/
def argToRanges : RArg → Except ParseErr (List Range)
  | .rng r => .ok [r]
  | .rlist rs => .ok rs
  | .strSpec s => specToRanges s
  | .num q => .ok [⟨q, q, 1⟩]
  | .nested args => argsToRanges args

/-- The recursive loop over a nested argument list. -/
def argsToRanges : List RArg → Except ParseErr (List Range)
  | [] => .ok []
  | a :: rest =>
    match argToRanges a with
    | .error e => .error e
    | .ok rs =>
      match argsToRanges rest with
      | .error e => .error e
      | .ok rs2 => .ok (rs ++ rs2)
end

/-- rangetools `RangeList.extend`:
`self._ranges.extend(_arg_to_ranges(ranges_arg))` — the argument is converted
completely before `list.extend` runs, so an error leaves `_ranges` as it
was. -/
def rangeListExtend (ranges : List Range) (arg : RArg) : Except ParseErr (List Range) :=
  match argToRanges arg with
  | .error e => .error e
  | .ok rs => .ok (ranges ++ rs)

/-! ## Concrete evaluations shared by several claims. -/

/-- The compaction run on the spec's concrete scenario `[1,4,5,6,7,9,11]`.
During the step-1 pass the `groupby` key `count - item` is `-3` for all of
`4, 5, 6, 7`, so the whole four-item run becomes one range `4-7`; `9` and
`11` share no three-member stepped run and stay singletons. -/
theorem itemsToRanges_scenario :
    itemsToRanges [1, 4, 5, 6, 7, 9, 11] =
      [⟨1, 1, 1⟩, ⟨4, 7, 1⟩, ⟨9, 9, 1⟩, ⟨11, 11, 1⟩] := by
  norm_num [itemsToRanges, itemsToRangesCore, dedupSort, diffs, stepLoop, stepPasses,
    stepPassesN, passGroups, passLoopN, collect, List.insertionSort, List.orderedInsert,
    List.dedup]

theorem rangeListStr_scenario :
    rangeListStr [(⟨1, 1, 1⟩ : Range), ⟨4, 7, 1⟩, ⟨9, 9, 1⟩, ⟨11, 11, 1⟩] =
      ("1,4-7,9,11").toList := by
  norm_num +decide [rangeListStr, rangeStr, numToStr, numToStrAbs, posNumStr, natChars,
    natCharsAux, digitChar, decExp, joinSep]

/-- C2: the failing input for the progression length law.  `BaseRange.__len__`
rounds `(stop - start) / step = 9/4` half-up to `2` and does not add `1`
(the step does not divide the difference), while `_iter` yields the three
items `0, 4, 8`. -/
theorem C2_length_law_failure :
    baseLen ⟨0, 9, 4⟩ = 2 ∧
    baseIterFuel ⟨0, 9, 4⟩ 4 0 = some [0, 4, 8] ∧
    ([(0 : ℚ), 4, 8]).length = 3 := by
  refine ⟨?_, ?_, rfl⟩
  · norm_num [baseLen, roundHalfUp]
  · norm_num [baseIterFuel, inRangeB]

/-- Helper for C4: the ascending `while i <= stop` loop of frange `_range`
never exits when the step is negative (here `stop = 10`, `step = -1`):
the running value only decreases, so `i <= stop` stays true. -/
theorem frangeUpFuel_neg_step_none (fuel : ℕ) :
    ∀ i : ℚ, i ≤ 10 → frangeUpFuel 10 (-1) fuel i = none := by
  induction fuel with
  | zero => intro i _; rfl
  | succ n ih =>
    intro i hi
    simp only [frangeUpFuel, if_pos hi]
    rw [ih (i + -1) (by linarith)]
    rfl

/-- C4: iteration termination.  frange `_range(0, 10, -1)` (the segment
parsed from the spec `"0-10:-1"`) never terminates: no amount of fuel
completes the loop.  The openrange `BaseRange._iter` loop and the rangetools
`Range.__iter__` loop both terminate on the same `(0, 10, -1)` input,
yielding `[]` and `[0]` respectively. -/
theorem C4_iteration_termination :
    (¬ frangeTerminates 0 10 (-1)) ∧
    baseIterFuel ⟨0, 10, -1⟩ 1 0 = some [] ∧
    rangeItems ⟨0, 10, -1⟩ = [0] := by
  refine ⟨?_, ?_, ?_⟩
  · rintro ⟨fuel, hsome⟩
    rw [frangeRangeFuel] at hsome
    norm_num at hsome
    rw [frangeUpFuel_neg_step_none fuel 0 (by norm_num)] at hsome
    simp at hsome
  · norm_num [baseIterFuel, inRangeB]
  · rw [rangeItems, dif_neg (by norm_num : (-1 : ℚ) ≠ 0), rangeIterAux]
    norm_num

/-- C5: positional access at `i = -7` on the five-item progression
`BaseRange(0, 4, 1)`.  The normalized index `-7 + 5 = -2` is below the valid
window, yet `__getitem__` only checks the upper bound and returns
`item(-2 * 1 + 0) = -2` instead of raising `IndexError`. -/
theorem C5_getitem_no_lower_check :
    baseLen ⟨0, 4, 1⟩ = 5 ∧
    baseGetItem ⟨0, 4, 1⟩ (-7) = .ok (-2) := by
  constructor
  · norm_num [baseLen, roundHalfUp]
  · norm_num [baseGetItem, baseLen, roundHalfUp]

/-- C9 counterexample: a single-argument openrange `BaseRange` is *not* the
degenerate progression: `BaseRange(5)` mimics the built-in `range` and sets
`start = 0`, `stop = 5`, `step = 1`, iterating over `[0, 1, 2, 3, 4, 5]`
rather than `[5]`. -/
theorem C9_counterexample :
    baseRangeInit [5] = .ok ⟨0, 5, 1⟩ ∧
    baseIterFuel ⟨0, 5, 1⟩ 7 0 = some [0, 1, 2, 3, 4, 5] ∧
    ((⟨0, 5, 1⟩ : BaseRange) ≠ ⟨5, 5, 1⟩) ∧
    ([(0 : ℚ), 1, 2, 3, 4, 5] ≠ [(5 : ℚ)]) := by
  refine ⟨rfl, ?_, ?_, by simp⟩
  · norm_num [baseIterFuel, inRangeB]
  · intro h
    have := congrArg BaseRange.start h
    norm_num at this

/-- C9 amended: single-value construction is degenerate for rangetools
`Range` (`stop` defaults to `start`, `step` to `1`, iterating to `[v]`),
while the openrange `BaseRange` one-argument form instead treats the value
as the stop of `0..v`. -/
theorem C9_single_value_construction (v : ℚ) :
    rangeInit v none 1 = .ok ⟨v, v, 1⟩ ∧
    rangeItems ⟨v, v, 1⟩ = [v] ∧
    baseRangeInit [v] = .ok ⟨0, v, 1⟩ := by
  refine ⟨by simp [rangeInit], ?_, rfl⟩
  rw [rangeItems, dif_neg (by norm_num : (1 : ℚ) ≠ 0), rangeIterAux]
  have hcond : (0 : ℚ) < 1 ∧ v < v + 1 ∨ (1 : ℚ) < 0 ∧ v + 1 < v :=
    Or.inl ⟨by norm_num, lt_add_one v⟩
  rw [if_pos hcond]

/-- C3 counterexample: compacting `[1,4,5,6,7,9,11]` does *not* produce the
claimed segments `(1,1,1), (4,4,1), (5,7,1), 9, 11` with spec string
`"1,4,5-7,9,11"`: the step-1 pass groups the whole run `4,5,6,7`. -/
theorem C3_counterexample :
    itemsToRanges [1, 4, 5, 6, 7, 9, 11] ≠
      [⟨1, 1, 1⟩, ⟨4, 4, 1⟩, ⟨5, 7, 1⟩, ⟨9, 9, 1⟩, ⟨11, 11, 1⟩] ∧
    rangeListStr (itemsToRanges [1, 4, 5, 6, 7, 9, 11]) ≠ ("1,4,5-7,9,11").toList := by
  rw [itemsToRanges_scenario]
  constructor
  · intro h
    have hlen := congrArg List.length h
    simp at hlen
  · rw [rangeListStr_scenario]
    decide

/-- C3 amended: `[1,4,5,6,7,9,11]` compacts to the segments
`(1,1,1), (4,7,1), (9,9,1), (11,11,1)`, i.e. the spec string `"1,4-7,9,11"`:
the four-member run `4,5,6,7` groups on step 1, and `9`, `11` (only a
two-member stepped run) remain singletons. -/
theorem C3_compact_scenario :
    itemsToRanges [1, 4, 5, 6, 7, 9, 11] =
      [⟨1, 1, 1⟩, ⟨4, 7, 1⟩, ⟨9, 9, 1⟩, ⟨11, 11, 1⟩] ∧
    rangeListStr (itemsToRanges [1, 4, 5, 6, 7, 9, 11]) = ("1,4-7,9,11").toList := by
  refine ⟨itemsToRanges_scenario, ?_⟩
  rw [itemsToRanges_scenario]
  exact rangeListStr_scenario

/-! ## Compaction correctness (C1) and idempotence (C8): helper lemmas. -/

theorem mem_dedupSort (l : List ℚ) (q : ℚ) : q ∈ dedupSort l ↔ q ∈ l := by
  rw [dedupSort, (List.perm_insertionSort _ _).mem_iff]
  exact List.mem_dedup

theorem dedupSort_sorted (l : List ℚ) : (dedupSort l).Sorted (· ≤ ·) :=
  List.sorted_insertionSort _ _

theorem dedupSort_nodup (l : List ℚ) : (dedupSort l).Nodup :=
  (List.perm_insertionSort _ _).nodup_iff.mpr l.nodup_dedup

theorem dedupSort_strict (l : List ℚ) : (dedupSort l).Sorted (· < ·) := by
  have h := (dedupSort_sorted l).and (dedupSort_nodup l)
  exact h.imp fun hab => lt_of_le_of_ne hab.1 hab.2

theorem diffs_pos : ∀ l : List ℚ, l.Sorted (· < ·) → ∀ s ∈ diffs l, 0 < s
  | [], _, s, hs => by simp [diffs] at hs
  | [a], _, s, hs => by simp [diffs] at hs
  | a :: b :: rest, hsort, s, hs => by
    rw [diffs] at hs
    rcases List.mem_cons.mp hs with rfl | hmem
    · have hab : a < b := (List.sorted_cons.mp hsort).1 b (by simp)
      linarith
    · exact diffs_pos (b :: rest) (List.sorted_cons.mp hsort).2 s hmem

/-- Unfolding equations for `collect`. -/
theorem collect_nil (s k : ℚ) (acc : List ℚ) (cnt : ℚ) :
    collect s k acc [] cnt = (acc, none, [], cnt) := rfl

theorem collect_cons_pos (s k : ℚ) (acc : List ℚ) (y : ℚ) (rest : List ℚ) (cnt : ℚ)
    (h : cnt - y = k) :
    collect s k acc (y :: rest) cnt = collect s k (acc ++ [y]) rest (cnt + s) := by
  rw [collect, if_pos h]

theorem collect_cons_neg (s k : ℚ) (acc : List ℚ) (y : ℚ) (rest : List ℚ) (cnt : ℚ)
    (h : ¬ cnt - y = k) :
    collect s k acc (y :: rest) cnt = (acc, some (cnt - y, y), rest, cnt + s) := by
  rw [collect, if_neg h]

/-- Every member of a `collect` group comes from the starting accumulator or
from the unread list. -/
theorem collect_group_sub (s k : ℚ) :
    ∀ (unread acc : List ℚ) (cnt : ℚ), ∀ x ∈ (collect s k acc unread cnt).1,
      x ∈ acc ∨ x ∈ unread := by
  intro unread
  induction unread with
  | nil => intro acc cnt x hx; rw [collect_nil] at hx; exact Or.inl hx
  | cons y rest ih =>
    intro acc cnt x hx
    by_cases h : cnt - y = k
    · rw [collect_cons_pos s k acc y rest cnt h] at hx
      rcases ih (acc ++ [y]) (cnt + s) x hx with hacc | hrest
      · rcases List.mem_append.mp hacc with h1 | h1
        · exact Or.inl h1
        · simp at h1; exact Or.inr (by simp [h1])
      · exact Or.inr (by simp [hrest])
    · rw [collect_cons_neg s k acc y rest cnt h] at hx
      exact Or.inl hx

/-- The lookahead element returned by `collect` was read from the unread
list, and its value is determined by its key and the advanced counter. -/
theorem collect_pending_spec (s k : ℚ) :
    ∀ (unread acc : List ℚ) (cnt : ℚ) (k2 v : ℚ),
      (collect s k acc unread cnt).2.1 = some (k2, v) →
      v ∈ unread ∧ v = (collect s k acc unread cnt).2.2.2 - s - k2 := by
  intro unread
  induction unread with
  | nil => intro acc cnt k2 v h; rw [collect_nil] at h; cases h
  | cons y rest ih =>
    intro acc cnt k2 v h
    by_cases hc : cnt - y = k
    · rw [collect_cons_pos s k acc y rest cnt hc] at h ⊢
      obtain ⟨hmem, hval⟩ := ih (acc ++ [y]) (cnt + s) k2 v h
      exact ⟨by simp [hmem], hval⟩
    · rw [collect_cons_neg s k acc y rest cnt hc] at h ⊢
      simp only [Option.some.injEq, Prod.mk.injEq] at h
      obtain ⟨hk, hv⟩ := h
      subst hk; subst hv
      exact ⟨by simp, by ring⟩

theorem collect_unread_sub (s k : ℚ) :
    ∀ (unread acc : List ℚ) (cnt : ℚ), ∀ x ∈ (collect s k acc unread cnt).2.2.1,
      x ∈ unread := by
  intro unread
  induction unread with
  | nil => intro acc cnt x hx; rw [collect_nil] at hx; simp at hx
  | cons y rest ih =>
    intro acc cnt x hx
    by_cases hc : cnt - y = k
    · rw [collect_cons_pos s k acc y rest cnt hc] at hx
      exact List.mem_cons_of_mem y (ih (acc ++ [y]) (cnt + s) x hx)
    · rw [collect_cons_neg s k acc y rest cnt hc] at hx
      exact List.mem_cons_of_mem y hx

/-- Groups built by `collect` are arithmetic chains of step `s`: each read
item equals its `count` value minus the shared key, and the counter advances
by `s` per read. -/
theorem collect_chain (s k : ℚ) :
    ∀ (unread acc : List ℚ) (cnt : ℚ),
      acc ≠ [] → List.Chain' (fun a b => b = a + s) acc →
      acc.getLast? = some (cnt - s - k) →
      (collect s k acc unread cnt).1 ≠ [] ∧
      List.Chain' (fun a b => b = a + s) (collect s k acc unread cnt).1 := by
  intro unread
  induction unread with
  | nil =>
    intro acc cnt hne hch _
    rw [collect_nil]
    exact ⟨hne, hch⟩
  | cons y rest ih =>
    intro acc cnt hne hch hlast
    by_cases hc : cnt - y = k
    · rw [collect_cons_pos s k acc y rest cnt hc]
      have hy : y = cnt - k := by linarith
      refine ih (acc ++ [y]) (cnt + s) (by simp) ?_ ?_
      · rw [List.chain'_append]
        refine ⟨hch, List.chain'_singleton y, ?_⟩
        intro a ha b hb
        rw [hlast] at ha
        simp at ha hb
        subst ha; subst hb
        rw [hy]; ring
      · rw [List.getLast?_append]
        simp only [List.getLast?_singleton, Option.or_some, Option.some.injEq, hy]
        ring
    · rw [collect_cons_neg s k acc y rest cnt hc]
      exact ⟨hne, hch⟩

/-- Invariant of one `groupby` pass: every group it reports (beyond the
accumulator) has at least three members, is an arithmetic chain of step `s`,
and draws all its members from the unread list or the pending lookahead. -/
theorem passLoopN_spec (s : ℚ) : ∀ (fuel : ℕ)
    (unread : List ℚ) (pending : Option (ℚ × ℚ)) (cnt : ℚ) (grps : List (List ℚ)),
    (∀ k v, pending = some (k, v) → v = cnt - s - k) →
    ∀ g ∈ passLoopN s fuel unread pending cnt grps,
      g ∈ grps ∨
      (3 ≤ g.length ∧ List.Chain' (fun a b => b = a + s) g ∧
        ∀ x ∈ g, x ∈ unread ∨ ∃ k, pending = some (k, x)) := by
  intro fuel
  induction fuel with
  | zero => intro unread pending cnt grps _ g hg; exact Or.inl hg
  | succ fuel ih =>
    intro unread pending cnt grps hpend g hg
    rcases pending with _ | ⟨k, v⟩
    · rcases unread with _ | ⟨x, rest⟩
      · simp only [passLoopN] at hg
        exact Or.inl hg
      · simp only [passLoopN] at hg
        have hv : [x].getLast? = some ((cnt + s) - s - (cnt - x)) := by
          simp only [List.getLast?_singleton, Option.some.injEq]
          ring
        have hchain := collect_chain s (cnt - x) rest [x] (cnt + s) (by simp)
          (List.chain'_singleton x) hv
        have hpend2 : ∀ k2 v2, (collect s (cnt - x) [x] rest (cnt + s)).2.1 = some (k2, v2) →
            v2 = (collect s (cnt - x) [x] rest (cnt + s)).2.2.2 - s - k2 :=
          fun k2 v2 hh => (collect_pending_spec s (cnt - x) rest [x] (cnt + s) k2 v2 hh).2
        split at hg
        · rename_i hlen
          rcases ih _ _ _ _ hpend2 g hg with hin | ⟨hl, hc, hm⟩
          · rcases List.mem_append.mp hin with hin | hin
            · exact Or.inl hin
            · simp only [List.mem_singleton] at hin
              subst hin
              refine Or.inr ⟨hlen, hchain.2, ?_⟩
              intro z hz
              rcases collect_group_sub s (cnt - x) rest [x] (cnt + s) z hz with hz1 | hz2
              · simp at hz1; simp [hz1]
              · exact Or.inl (by simp [hz2])
          · refine Or.inr ⟨hl, hc, ?_⟩
            intro z hz
            rcases hm z hz with hzu | ⟨k2, hzp⟩
            · exact Or.inl (List.mem_cons_of_mem x
                (collect_unread_sub s (cnt - x) rest [x] (cnt + s) z (List.drop_subset _ _ hzu)))
            · exact Or.inl (List.mem_cons_of_mem x
                (collect_pending_spec s (cnt - x) rest [x] (cnt + s) k2 z hzp).1)
        · rcases ih _ _ _ _ hpend2 g hg with hin | ⟨hl, hc, hm⟩
          · exact Or.inl hin
          · refine Or.inr ⟨hl, hc, ?_⟩
            intro z hz
            rcases hm z hz with hzu | ⟨k2, hzp⟩
            · exact Or.inl (List.mem_cons_of_mem x
                (collect_unread_sub s (cnt - x) rest [x] (cnt + s) z hzu))
            · exact Or.inl (List.mem_cons_of_mem x
                (collect_pending_spec s (cnt - x) rest [x] (cnt + s) k2 z hzp).1)
    · simp only [passLoopN] at hg
      have hv : [v].getLast? = some (cnt - s - k) := by
        simp [hpend k v rfl]
      have hchain := collect_chain s k unread [v] cnt (by simp)
        (List.chain'_singleton v) hv
      have hpend2 : ∀ k2 v2, (collect s k [v] unread cnt).2.1 = some (k2, v2) →
          v2 = (collect s k [v] unread cnt).2.2.2 - s - k2 :=
        fun k2 v2 hh => (collect_pending_spec s k unread [v] cnt k2 v2 hh).2
      split at hg
      · rename_i hlen
        rcases ih _ _ _ _ hpend2 g hg with hin | ⟨hl, hc, hm⟩
        · rcases List.mem_append.mp hin with hin | hin
          · exact Or.inl hin
          · simp only [List.mem_singleton] at hin
            subst hin
            refine Or.inr ⟨hlen, hchain.2, ?_⟩
            intro z hz
            rcases collect_group_sub s k unread [v] cnt z hz with hz1 | hz2
            · simp at hz1; exact Or.inr ⟨k, by rw [hz1]⟩
            · exact Or.inl hz2
        · refine Or.inr ⟨hl, hc, ?_⟩
          intro z hz
          rcases hm z hz with hzu | ⟨k2, hzp⟩
          · exact Or.inl (collect_unread_sub s k unread [v] cnt z (List.drop_subset _ _ hzu))
          · exact Or.inl (collect_pending_spec s k unread [v] cnt k2 z hzp).1
      · rcases ih _ _ _ _ hpend2 g hg with hin | ⟨hl, hc, hm⟩
        · exact Or.inl hin
        · refine Or.inr ⟨hl, hc, ?_⟩
          intro z hz
          rcases hm z hz with hzu | ⟨k2, hzp⟩
          · exact Or.inl (collect_unread_sub s k unread [v] cnt z hzu)
          · exact Or.inl (collect_pending_spec s k unread [v] cnt k2 z hzp).1

/-- The groups of a full pass: at least three members each, arithmetic chains
of the candidate step, members drawn from the pass's item list. -/
theorem passGroups_spec (s : ℚ) (items : List ℚ) :
    ∀ g ∈ passGroups s items,
      3 ≤ g.length ∧ List.Chain' (fun a b => b = a + s) g ∧ ∀ x ∈ g, x ∈ items := by
  intro g hg
  rcases passLoopN_spec s (items.length + 2) items none 0 [] (by simp) g hg with hin | ⟨hl, hc, hm⟩
  · simp at hin
  · refine ⟨hl, hc, fun x hx => ?_⟩
    rcases hm x hx with h | ⟨k, hk⟩
    · exact h
    · cases hk

/-- The `while ranges_found` loop: all reported groups are ≥3-member chains
drawn from the incoming list, and the surviving list holds exactly the
incoming items belonging to no reported group. -/
theorem stepPassesN_spec (s : ℚ) : ∀ (fuel : ℕ) (items : List ℚ),
    (∀ g ∈ (stepPassesN s fuel items).1,
      3 ≤ g.length ∧ List.Chain' (fun a b => b = a + s) g ∧ ∀ x ∈ g, x ∈ items) ∧
    (∀ q, q ∈ (stepPassesN s fuel items).2 ↔
      q ∈ items ∧ ∀ g ∈ (stepPassesN s fuel items).1, q ∉ g) := by
  intro fuel
  induction fuel with
  | zero =>
    intro items
    refine ⟨by simp [stepPassesN], fun q => ?_⟩
    simp [stepPassesN]
  | succ fuel ih =>
    intro items
    by_cases hemp : (passGroups s items).isEmpty
    · refine ⟨?_, fun q => ?_⟩
      · simp [stepPassesN, hemp]
      · simp [stepPassesN, hemp]
    · have hunfold : stepPassesN s (fuel + 1) items =
          (passGroups s items ++
            (stepPassesN s fuel (items.filter
              (fun x => !decide (x ∈ (passGroups s items).flatten)))).1,
           (stepPassesN s fuel (items.filter
              (fun x => !decide (x ∈ (passGroups s items).flatten)))).2) := by
        rw [stepPassesN, if_neg (by simp [hemp])]
      set items2 := items.filter (fun x => !decide (x ∈ (passGroups s items).flatten)) with hitems2
      have hsub : ∀ x ∈ items2, x ∈ items := fun x hx => List.mem_of_mem_filter hx
      obtain ⟨ihg, ihm⟩ := ih items2
      constructor
      · intro g hg
        rw [hunfold] at hg
        rcases List.mem_append.mp hg with hg1 | hg2
        · exact passGroups_spec s items g hg1
        · obtain ⟨hl, hc, hm⟩ := ihg g hg2
          exact ⟨hl, hc, fun x hx => hsub x (hm x hx)⟩
      · intro q
        rw [hunfold]
        simp only
        rw [ihm q]
        constructor
        · rintro ⟨hq2, hnone⟩
          have hqi : q ∈ items ∧ q ∉ (passGroups s items).flatten := by
            have := List.mem_filter.mp (hitems2 ▸ hq2)
            exact ⟨this.1, by simpa using this.2⟩
          refine ⟨hqi.1, fun g hg => ?_⟩
          rcases List.mem_append.mp hg with hg1 | hg2
          · intro hqg
            exact hqi.2 (List.mem_flatten.mpr ⟨g, hg1, hqg⟩)
          · exact hnone g hg2
        · rintro ⟨hqi, hall⟩
          have hq2 : q ∈ items2 := by
            rw [hitems2]
            refine List.mem_filter.mpr ⟨hqi, ?_⟩
            simp only [Bool.not_eq_true', decide_eq_false_iff_not]
            intro hfl
            obtain ⟨g, hg, hqg⟩ := List.mem_flatten.mp hfl
            exact hall g (List.mem_append.mpr (Or.inl hg)) hqg
          exact ⟨hq2, fun g hg => hall g (List.mem_append.mpr (Or.inr hg))⟩

/-- The inclusive arithmetic progression `a, a+s, ..., a+(n-1)s`. -/
def progList (a s : ℚ) : ℕ → List ℚ
  | 0 => []
  | n + 1 => a :: progList (a + s) s n

theorem chain_eq_progList (s : ℚ) :
    ∀ g : List ℚ, List.Chain' (fun a b => b = a + s) g →
      g = progList (g.headD 0) s g.length
  | [], _ => rfl
  | [a], _ => rfl
  | a :: b :: rest, h => by
    obtain ⟨hab, hrest⟩ := List.chain'_cons.mp h
    have ih := chain_eq_progList s (b :: rest) hrest
    simp only [List.headD_cons, List.length_cons] at ih ⊢
    rw [progList]
    subst hab
    exact congrArg _ ih

theorem progList_getLastD (s : ℚ) :
    ∀ (n : ℕ) (a d : ℚ), (progList a s (n + 1)).getLastD d = a + n * s := by
  intro n
  induction n with
  | zero => intro a d; simp [progList]
  | succ n ih =>
    intro a d
    rw [progList, List.getLastD_cons, ih (a + s) a]
    push_cast
    ring

/-- Iterating `Range(a, a + n*s, s)` with a positive step yields exactly the
progression `a, a+s, ..., a+n*s`. -/
theorem rangeIterAux_progList (s : ℚ) (hs : 0 < s) :
    ∀ (n : ℕ) (a : ℚ),
      rangeIterAux (a + n * s) s (ne_of_gt hs) a = progList a s (n + 1) := by
  intro n
  induction n with
  | zero =>
    intro a
    rw [rangeIterAux]
    have hcond : (0 < s ∧ a + (0 : ℕ) * s < a + s) ∨ (s < 0 ∧ a + s < a + (0 : ℕ) * s) :=
      Or.inl ⟨hs, by push_cast; linarith⟩
    rw [if_pos hcond]
    rfl
  | succ n ih =>
    intro a
    rw [rangeIterAux]
    have hcond : ¬ ((0 < s ∧ a + ((n : ℕ) + 1 : ℕ) * s < a + s) ∨
        (s < 0 ∧ a + s < a + ((n : ℕ) + 1 : ℕ) * s)) := by
      push_neg
      constructor
      · intro _
        push_cast
        nlinarith
      · intro hneg
        exact absurd hneg (not_lt.mpr (le_of_lt hs))
    rw [if_neg hcond]
    have harg : a + ((n : ℕ) + 1 : ℕ) * s = (a + s) + n * s := by push_cast; ring
    rw [show progList a s (n + 1 + 1) = a :: progList (a + s) s (n + 1) from rfl]
    congr 1
    rw [harg]
    exact ih (a + s)

/-- A nonempty arithmetic chain with positive step flattens back to itself
when wrapped as `Range(first, last, step)`. -/
theorem rangeItems_of_chain (s : ℚ) (hs : 0 < s) (g : List ℚ) (hne : g ≠ [])
    (hch : List.Chain' (fun a b => b = a + s) g) :
    rangeItems ⟨g.headD 0, g.getLastD 0, s⟩ = g := by
  obtain ⟨n, hlen⟩ : ∃ n, g.length = n + 1 := by
    cases g with
    | nil => exact absurd rfl hne
    | cons a t => exact ⟨t.length, rfl⟩
  have hprog := chain_eq_progList s g hch
  rw [hlen] at hprog
  have hlast : g.getLastD 0 = g.headD 0 + n * s := by
    conv_lhs => rw [hprog]
    exact progList_getLastD s n (g.headD 0) 0
  rw [rangeItems]
  rw [dif_neg (show ¬ s = 0 from ne_of_gt hs)]
  simp only
  rw [hlast, rangeIterAux_progList s hs n (g.headD 0)]
  exact hprog.symm

/-- A singleton `Range(v)` iterates to `[v]`. -/
theorem rangeItems_single (v : ℚ) : rangeItems ⟨v, v, 1⟩ = [v] := by
  rw [rangeItems, dif_neg (by norm_num : (1 : ℚ) ≠ 0), rangeIterAux]
  have hcond : (0 : ℚ) < 1 ∧ v < v + 1 ∨ (1 : ℚ) < 0 ∧ v + 1 < v :=
    Or.inl ⟨by norm_num, lt_add_one v⟩
  rw [if_pos hcond]

theorem mem_flattenRanges (rs : List Range) (q : ℚ) :
    q ∈ flattenRanges rs ↔ ∃ r ∈ rs, q ∈ rangeItems r := by
  rw [flattenRanges, List.mem_flatten]
  constructor
  · rintro ⟨l, hl, hql⟩
    obtain ⟨r, hr, rfl⟩ := List.mem_map.mp hl
    exact ⟨r, hr, hql⟩
  · rintro ⟨r, hr, hq⟩
    exact ⟨rangeItems r, List.mem_map.mpr ⟨r, hr, rfl⟩, hq⟩

/-- The step loop: the items of the incoming list are exactly the items of
the produced stepped ranges plus the surviving list. -/
theorem stepLoop_spec : ∀ (steps : List ℚ), (∀ s ∈ steps, 0 < s) →
    ∀ (items : List ℚ) (q : ℚ),
      (q ∈ flattenRanges (stepLoop steps items).1 ∨ q ∈ (stepLoop steps items).2) ↔
        q ∈ items := by
  intro steps
  induction steps with
  | nil =>
    intro _ items q
    simp [stepLoop, flattenRanges]
  | cons s rest ih =>
    intro hpos items q
    have hs : 0 < s := hpos s (by simp)
    obtain ⟨hgrp, hmem⟩ := stepPassesN_spec s (items.length + 1) items
    rw [stepLoop]
    simp only
    rw [show stepPasses s items = stepPassesN s (items.length + 1) items from rfl] at *
    constructor
    · intro h
      rcases h with hfl | hsur
      · rw [mem_flattenRanges] at hfl
        obtain ⟨r, hr, hqr⟩ := hfl
        rcases List.mem_append.mp hr with hr1 | hr2
        · obtain ⟨g, hg, rfl⟩ := List.mem_map.mp hr1
          obtain ⟨hl, hc, hsub⟩ := hgrp g hg
          rw [rangeItems_of_chain s hs g (by intro hgn; simp [hgn] at hl) hc] at hqr
          exact hsub q hqr
        · have : q ∈ flattenRanges (stepLoop rest (stepPassesN s (items.length + 1) items).2).1 :=
            (mem_flattenRanges _ q).mpr ⟨r, hr2, hqr⟩
          have hq2 := (ih (fun t ht => hpos t (by simp [ht])) _ q).mp (Or.inl this)
          exact ((hmem q).mp hq2).1
      · have hq2 := (ih (fun t ht => hpos t (by simp [ht])) _ q).mp (Or.inr hsur)
        exact ((hmem q).mp hq2).1
    · intro hq
      by_cases hex : ∃ g ∈ (stepPassesN s (items.length + 1) items).1, q ∈ g
      · obtain ⟨g, hg, hqg⟩ := hex
        left
        rw [mem_flattenRanges]
        obtain ⟨hl, hc, _⟩ := hgrp g hg
        refine ⟨⟨g.headD 0, g.getLastD 0, s⟩,
          List.mem_append.mpr (Or.inl (List.mem_map.mpr ⟨g, hg, rfl⟩)), ?_⟩
        rw [rangeItems_of_chain s hs g (by intro hgn; simp [hgn] at hl) hc]
        exact hqg
      · push_neg at hex
        have hq2 : q ∈ (stepPassesN s (items.length + 1) items).2 :=
          (hmem q).mpr ⟨hq, hex⟩
        have := (ih (fun t ht => hpos t (by simp [ht])) _ q).mpr hq2
        rcases this with hfl | hsur
        · left
          rw [mem_flattenRanges] at hfl ⊢
          obtain ⟨r, hr, hqr⟩ := hfl
          exact ⟨r, List.mem_append.mpr (Or.inr hr), hqr⟩
        · right
          exact hsur

/-- Compaction set-correctness: flattening the ranges returned by
`_items_to_ranges` yields, as a set, exactly the distinct members of the
input list. -/
theorem mem_flatten_itemsToRanges (items : List ℚ) (q : ℚ) :
    q ∈ flattenRanges (itemsToRanges items) ↔ q ∈ items := by
  rw [itemsToRanges, itemsToRangesCore]
  rw [mem_flattenRanges, ← mem_dedupSort items q]
  set L := dedupSort items with hL
  have hpos : ∀ s ∈ (diffs L).dedup, 0 < s := by
    intro s hsd
    exact diffs_pos L (dedupSort_strict items) s (List.mem_dedup.mp hsd)
  have hperm := List.perm_insertionSort (fun a b : Range => a.start ≤ b.start)
    ((stepLoop (diffs L).dedup L).1 ++ (stepLoop (diffs L).dedup L).2.map (fun v => Range.mk v v 1))
  constructor
  · rintro ⟨r, hr, hqr⟩
    have hr2 := hperm.subset hr
    rcases List.mem_append.mp hr2 with hr3 | hr4
    · exact (stepLoop_spec (diffs L).dedup hpos L q).mp
        (Or.inl ((mem_flattenRanges _ q).mpr ⟨r, hr3, hqr⟩))
    · obtain ⟨v, hv, rfl⟩ := List.mem_map.mp hr4
      rw [rangeItems_single v] at hqr
      simp at hqr
      subst hqr
      exact (stepLoop_spec (diffs L).dedup hpos L q).mp (Or.inr hv)
  · intro hq
    rcases (stepLoop_spec (diffs L).dedup hpos L q).mpr hq with hfl | hsur
    · obtain ⟨r, hr, hqr⟩ := (mem_flattenRanges _ q).mp hfl
      exact ⟨r, hperm.symm.subset (List.mem_append.mpr (Or.inl hr)), hqr⟩
    · refine ⟨⟨q, q, 1⟩, hperm.symm.subset
        (List.mem_append.mpr (Or.inr (List.mem_map.mpr ⟨q, hsur, rfl⟩))), ?_⟩
      rw [rangeItems_single q]
      simp

/-- C1: compaction correctness.  For every finite collection of numbers
(arbitrary order, duplicates allowed), flattening the ranges returned by
`_items_to_ranges` — the union of the items iterated by every returned
segment — yields, as a set, exactly the distinct members of the input:
no input number is lost and no outside number is produced. -/
theorem C1_compaction_correctness (items : List ℚ) (q : ℚ) :
    q ∈ flattenRanges (itemsToRanges items) ↔ q ∈ items :=
  mem_flatten_itemsToRanges items q

/-- Two strictly-sorted deduplications of lists with the same members are
equal. -/
theorem dedupSort_eq_of_mem_iff (l₁ l₂ : List ℚ) (h : ∀ q, q ∈ l₁ ↔ q ∈ l₂) :
    dedupSort l₁ = dedupSort l₂ :=
  List.eq_of_perm_of_sorted
    ((List.perm_ext_iff_of_nodup (dedupSort_nodup l₁) (dedupSort_nodup l₂)).mpr
      (fun a => by rw [mem_dedupSort, mem_dedupSort]; exact h a))
    (dedupSort_sorted l₁) (dedupSort_sorted l₂)

/-- C8: compaction idempotence.  `RangeList.compact` re-runs
`_items_to_ranges` on the flattened items; since the compactor only depends
on the deduplicated sorted item list and compaction preserves the item set
(C1's helper), compacting an already-compacted collection reproduces exactly
the same ordered range list. -/
theorem C8_compact_idempotent (rl : List Range) :
    compactRangeList (compactRangeList rl) = compactRangeList rl := by
  unfold compactRangeList
  have hcore : itemsToRanges (flattenRanges (itemsToRanges (flattenRanges rl))) =
      itemsToRangesCore (dedupSort (flattenRanges (itemsToRanges (flattenRanges rl)))) := rfl
  rw [hcore,
    dedupSort_eq_of_mem_iff _ _ (fun q => mem_flatten_itemsToRanges (flattenRanges rl) q)]
  rfl

/-! ## Parse totality (C6). -/

/-- `_parse_range_str` fails only with `SyntaxError`, and that error names
the token itself. -/
theorem parseRangeStr_error_eq {tok : List Char} {e : ParseErr}
    (h : parseRangeStr tok = .error e) : e = .syntaxErr tok := by
  rw [parseRangeStr] at h
  repeat' split at h
  all_goals simp_all

/-- The three ways one token of `_spec_to_ranges` can go: a good range, a
zero-step `ValueError`, or a grammar `SyntaxError`. -/
theorem tokenToRange_cases (tok : List Char) :
    (∃ a b s, parseRangeStr tok = .ok (a, b, s) ∧ s ≠ 0 ∧
        tokenToRange tok = .ok ⟨a, b, s⟩) ∨
    (∃ a b, parseRangeStr tok = .ok (a, b, 0) ∧ tokenToRange tok = .error .valueErr) ∨
    (parseRangeStr tok = .error (.syntaxErr tok) ∧
        tokenToRange tok = .error (.syntaxErr tok)) := by
  rw [tokenToRange]
  cases h : parseRangeStr tok with
  | error e =>
    have := parseRangeStr_error_eq h
    subst this
    exact Or.inr (Or.inr ⟨rfl, rfl⟩)
  | ok v =>
    obtain ⟨a, b, s⟩ := v
    by_cases hs : s = 0
    · subst hs
      exact Or.inr (Or.inl ⟨a, b, rfl, by simp⟩)
    · exact Or.inl ⟨a, b, s, rfl, hs, by simp [hs]⟩

theorem tokensToRanges_ok_all (toks : List (List Char))
    (h : ∀ tok ∈ toks, ∃ a b s, parseRangeStr tok = .ok (a, b, s) ∧ s ≠ 0) :
    ∃ rs, tokensToRanges toks = .ok rs ∧ rs.length = toks.length := by
  induction toks with
  | nil => exact ⟨[], rfl, rfl⟩
  | cons tok rest ih =>
    obtain ⟨a, b, s, hok, hs⟩ := h tok (by simp)
    obtain ⟨rs, hrs, hlen⟩ := ih (fun t ht => h t (by simp [ht]))
    refine ⟨⟨a, b, s⟩ :: rs, ?_, by simp [hlen]⟩
    rw [tokensToRanges, tokenToRange, hok]
    simp only [hs, if_false, hrs]

theorem tokensToRanges_of_ok (toks : List (List Char)) (rs : List Range)
    (h : tokensToRanges toks = .ok rs) :
    rs.length = toks.length ∧ ∀ tok ∈ toks, (parseRangeStr tok).isOk = true := by
  induction toks generalizing rs with
  | nil =>
    rw [tokensToRanges] at h
    cases h
    exact ⟨rfl, by simp⟩
  | cons tok rest ih =>
    rw [tokensToRanges] at h
    cases htok : tokenToRange tok with
    | error e => rw [htok] at h; cases h
    | ok r =>
      rw [htok] at h
      cases hrest : tokensToRanges rest with
      | error e => rw [hrest] at h; cases h
      | ok rs2 =>
        rw [hrest] at h
        cases h
        obtain ⟨hlen, hall⟩ := ih rs2 hrest
        refine ⟨by simp [hlen], ?_⟩
        intro t ht
        rcases List.mem_cons.mp ht with rfl | hmem
        · rcases tokenToRange_cases t with ⟨a, b, s, hp, _, _⟩ | ⟨a, b, hp, hbad⟩ | ⟨hp, hbad⟩
          · rw [hp]; rfl
          · rw [hbad] at htok; cases htok
          · rw [hbad] at htok; cases htok
        · exact hall t hmem

theorem tokensToRanges_syntaxErr (toks : List (List Char)) (tok : List Char)
    (h : tokensToRanges toks = .error (.syntaxErr tok)) :
    tok ∈ toks ∧ parseRangeStr tok = .error (.syntaxErr tok) := by
  induction toks with
  | nil => rw [tokensToRanges] at h; cases h
  | cons t rest ih =>
    rw [tokensToRanges] at h
    cases htok : tokenToRange t with
    | error e =>
      rw [htok] at h
      cases h
      rcases tokenToRange_cases t with ⟨a, b, s, _, _, hbad⟩ | ⟨a, b, _, hv⟩ | ⟨hp, hv⟩
      · rw [hbad] at htok; cases htok
      · rw [hv] at htok; cases htok
      · rw [hv] at htok
        cases htok
        exact ⟨by simp, hp⟩
    | ok r =>
      rw [htok] at h
      cases hrest : tokensToRanges rest with
      | error e =>
        rw [hrest] at h
        cases h
        obtain ⟨hmem, hp⟩ := ih hrest
        exact ⟨by simp [hmem], hp⟩
      | ok rs2 => rw [hrest] at h; cases h

theorem tokensToRanges_valueErr (toks : List (List Char))
    (h : tokensToRanges toks = .error .valueErr) :
    ∃ tok ∈ toks, ∃ a b, parseRangeStr tok = .ok (a, b, 0) := by
  induction toks with
  | nil => rw [tokensToRanges] at h; cases h
  | cons t rest ih =>
    rw [tokensToRanges] at h
    cases htok : tokenToRange t with
    | error e =>
      rw [htok] at h
      cases h
      rcases tokenToRange_cases t with ⟨a, b, s, _, _, hbad⟩ | ⟨a, b, hp, hv⟩ | ⟨hp, hv⟩
      · rw [hbad] at htok; cases htok
      · exact ⟨t, by simp, a, b, hp⟩
      · rw [hv] at htok; cases htok
    | ok r =>
      rw [htok] at h
      cases hrest : tokensToRanges rest with
      | error e =>
        rw [hrest] at h
        cases h
        obtain ⟨tok, hmem, hp⟩ := ih hrest
        exact ⟨tok, by simp [hmem], hp⟩
      | ok rs2 => rw [hrest] at h; cases h

/-- C6 counterexample: two failures of the claim as stated.  First, every
comma token of `"5-6:0"` matches the grammar, yet the parse fails (with
`ValueError` from the `Range` constructor, not a `ParseError`), so "if every
token matches, parsing succeeds with one segment per token" is false.
Second, the token `"5\n"` does not match the grammar
`NUMBER | NUMBER-NUMBER | NUMBER-NUMBER:NUMBER`, yet `_parse_range_str`
accepts it — Python's `$` anchor also matches just before a trailing
newline — so "a token that fails the grammar makes the whole parse fail with
a `ParseError`" is false as well. -/
theorem C6_counterexample :
    ((∀ tok ∈ splitSpec (("5-6:0").toList), (parseRangeStr tok).isOk = true) ∧
      specToRanges (("5-6:0").toList) = .error .valueErr) ∧
    (grammarMatch (("5\n").toList) = false ∧
      parseRangeStr (("5\n").toList) = .ok (5, 5, 1) ∧
      specToRanges (("5\n").toList) = .ok [⟨5, 5, 1⟩]) := by
  refine ⟨⟨?_, ?_⟩, ?_, ?_, ?_⟩
  · intro tok htok
    simp +decide [splitSpec, splitComma, trimTrail, trimLead, trimInner, isSpace] at htok
    subst htok
    simp +decide [parseRangeStr, stripTrailNl, isNum, isNumBody, isDigitC, colonSplit,
      rangeSplit, numVal, numBodyVal, digitsVal, digitVal]
  · simp +decide [specToRanges, splitSpec, splitComma, trimTrail, trimLead, trimInner,
      isSpace, tokensToRanges, tokenToRange, parseRangeStr, stripTrailNl, isNum, isNumBody,
      isDigitC, colonSplit, rangeSplit, numVal, numBodyVal, digitsVal, digitVal]
  · simp +decide [grammarMatch, isNum, isNumBody, isDigitC, colonSplit, rangeSplit]
  · norm_num +decide [parseRangeStr, stripTrailNl, isNum, isNumBody, isDigitC, colonSplit,
      rangeSplit, numVal, numBodyVal, digitsVal, digitVal]
  · norm_num +decide [specToRanges, splitSpec, splitComma, trimTrail, trimLead, trimInner,
      isSpace, tokensToRanges, tokenToRange, parseRangeStr, stripTrailNl, isNum, isNumBody,
      isDigitC, colonSplit, rangeSplit, numVal, numBodyVal, digitsVal, digitVal]

/-- C6 amended: parse-failure totality of `_spec_to_ranges` over the real
token language of `RANGE_SPEC_REGEX` — the grammar
`NUMBER | NUMBER-NUMBER | NUMBER-NUMBER:NUMBER` with one optional trailing
newline (which Python's `$` anchor accepts and the capturing groups drop).
If some token fails that language the whole parse fails with a `SyntaxError`
naming an offending token and no range list is returned; if every token is
accepted and carries a nonzero step, parsing succeeds with exactly one
segment per token; an accepted token with an explicit zero step makes the
whole parse fail with `ValueError` instead. -/
theorem C6_parse_totality (spec : List Char) :
    ((∀ tok ∈ splitSpec spec, ∃ a b s, parseRangeStr tok = .ok (a, b, s) ∧ s ≠ 0) →
      ∃ rs, specToRanges spec = .ok rs ∧ rs.length = (splitSpec spec).length) ∧
    (∀ rs, specToRanges spec = .ok rs →
      rs.length = (splitSpec spec).length ∧
      ∀ tok ∈ splitSpec spec, (parseRangeStr tok).isOk = true) ∧
    (∀ tok, specToRanges spec = .error (.syntaxErr tok) →
      tok ∈ splitSpec spec ∧ parseRangeStr tok = .error (.syntaxErr tok)) ∧
    (specToRanges spec = .error .valueErr →
      ∃ tok ∈ splitSpec spec, ∃ a b, parseRangeStr tok = .ok (a, b, 0)) := by
  refine ⟨fun h => tokensToRanges_ok_all _ h, fun rs h => tokensToRanges_of_ok _ rs h,
    fun tok h => tokensToRanges_syntaxErr _ tok h, fun h => tokensToRanges_valueErr _ h⟩

/-- C6 witness: on `"1-3,abc"` the parse fails with a `SyntaxError` naming
the offending token `"abc"`, which is one of the comma tokens and fails the
grammar. -/
theorem C6_parse_totality_witness :
    (("abc").toList ∈ splitSpec (("1-3,abc").toList)) ∧
    parseRangeStr (("abc").toList) = .error (.syntaxErr (("abc").toList)) := by
  exact (C6_parse_totality (("1-3,abc").toList)).2.2.1 (("abc").toList)
    (by simp +decide [specToRanges, splitSpec, splitComma, trimTrail, trimLead, trimInner,
      isSpace, tokensToRanges, tokenToRange, parseRangeStr, isNum, isNumBody, isDigitC,
      colonSplit, rangeSplit, numVal, numBodyVal, digitsVal, digitVal])

/-! ## Round-trip stability (C7): digit and rendering lemmas. -/

theorem prime_dvd_ten {p : ℕ} (hp : p.Prime) (h : p ∣ 10) : p = 2 ∨ p = 5 := by
  have h10 := Nat.le_of_dvd (by norm_num) h
  have h2 := hp.two_le
  interval_cases p <;> first
    | (left; rfl)
    | (right; rfl)
    | (exfalso; revert h; decide)
    | (exfalso; revert hp; decide)

/-- A divisor of a power of ten is 10-smooth, hence divides a power of ten
with exponent bounded by the divisor itself. -/
theorem dvd_ten_pow_bounded {n : ℕ} (hn : n ≠ 0) {L : ℕ} (h : n ∣ 10 ^ L) :
    ∃ k, k ≤ n ∧ n ∣ 10 ^ k := by
  set a := n.factorization 2 with ha
  set b := n.factorization 5 with hb
  have h2 : 2 ^ a ∣ n := Nat.ordProj_dvd n 2
  have h5 : 5 ^ b ∣ n := Nat.ordProj_dvd n 5
  have hsupp : n.primeFactors ⊆ ({2, 5} : Finset ℕ) := by
    intro p hp
    have hpp : p.Prime := Nat.prime_of_mem_primeFactors hp
    have hdvd : p ∣ 10 ^ L := (Nat.dvd_of_mem_primeFactors hp).trans h
    have := prime_dvd_ten hpp (hpp.dvd_of_dvd_pow hdvd)
    simpa using this
  have hn' : n = 2 ^ a * 5 ^ b := by
    conv_lhs => rw [← Nat.factorization_prod_pow_eq_self hn]
    rw [Finsupp.prod, Nat.support_factorization]
    rw [Finset.prod_subset hsupp]
    · rw [Finset.prod_insert (by norm_num), Finset.prod_singleton]
    · intro x _ hx
      have hz : n.factorization x = 0 := by
        by_contra hzz
        exact hx (by rw [← Nat.support_factorization]; exact Finsupp.mem_support_iff.mpr hzz)
      rw [hz, pow_zero]
  refine ⟨max a b, ?_, ?_⟩
  · have haa : a < 2 ^ a := Nat.lt_two_pow a
    have hbb : b < 5 ^ b := Nat.lt_pow_self (by norm_num) b
    have h2n : 2 ^ a ≤ n := Nat.le_of_dvd (Nat.pos_of_ne_zero hn) h2
    have h5n : 5 ^ b ≤ n := Nat.le_of_dvd (Nat.pos_of_ne_zero hn) h5
    exact max_le (le_of_lt (lt_of_lt_of_le haa h2n)) (le_of_lt (lt_of_lt_of_le hbb h5n))
  · rw [hn', show (10 : ℕ) = 2 * 5 by norm_num, Nat.mul_pow]
    exact Nat.mul_dvd_mul (pow_dvd_pow 2 (le_max_left a b)) (pow_dvd_pow 5 (le_max_right a b))

/-- `decExp` finds a working exponent whenever one exists at all. -/
theorem decExp_dvd {den : ℕ} (hden : den ≠ 0) {L : ℕ} (h : den ∣ 10 ^ L) :
    den ∣ 10 ^ decExp den := by
  obtain ⟨k, hk, hdvd⟩ := dvd_ten_pow_bounded hden h
  rw [decExp]
  cases hfind : (List.range (den + 1)).find? (fun j => 10 ^ j % den = 0) with
  | none =>
    exfalso
    rw [List.find?_eq_none] at hfind
    have hmod : 10 ^ k % den = 0 := Nat.mod_eq_zero_of_dvd hdvd
    exact hfind k (List.mem_range.mpr (by omega)) (by simpa using hmod)
  | some j =>
    have hj := List.find?_some hfind
    simp only [decide_eq_true_eq] at hj
    simpa using Nat.dvd_of_mod_eq_zero hj

theorem isDigitC_spec {c : Char} (h : isDigitC c = true) :
    c ≠ '+' ∧ c ≠ '-' ∧ c ≠ '.' ∧ c ≠ ':' ∧ c ≠ ',' ∧ isSpace c = false := by
  rw [isDigitC] at h
  simp only [Bool.or_eq_true, decide_eq_true_eq] at h
  rcases h with ((((((((rfl | rfl) | rfl) | rfl) | rfl) | rfl) | rfl) | rfl) | rfl) | rfl <;>
    exact ⟨by decide, by decide, by decide, by decide, by decide, by decide⟩

theorem isDigitC_digitChar (d : ℕ) : isDigitC (digitChar d) = true := by
  rw [digitChar]
  repeat' split
  all_goals decide

theorem digitVal_digitChar {d : ℕ} (h : d < 10) : digitVal (digitChar d) = d := by
  interval_cases d <;> decide

theorem digitsVal_append_singleton (ds : List Char) (c : Char) :
    digitsVal (ds ++ [c]) = 10 * digitsVal ds + digitVal c := by
  rw [digitsVal, digitsVal, List.foldl_append]
  rfl

theorem digitsVal_replicate_zero (z : ℕ) (ds : List Char) :
    digitsVal (List.replicate z '0' ++ ds) = digitsVal ds := by
  induction z with
  | zero => rfl
  | succ z ih =>
    rw [List.replicate_succ, List.cons_append]
    show digitsVal (List.replicate z '0' ++ ds) = digitsVal ds
    exact ih

theorem natCharsAux_congr : ∀ (n f₁ f₂ : ℕ), n ≤ f₁ → n ≤ f₂ →
    natCharsAux f₁ n = natCharsAux f₂ n := by
  intro n
  induction n using Nat.strong_induction_on with
  | _ n ih =>
    intro f₁ f₂ h₁ h₂
    cases n with
    | zero => cases f₁ <;> cases f₂ <;> rfl
    | succ m =>
      obtain ⟨g₁, rfl⟩ := Nat.exists_eq_succ_of_ne_zero (show f₁ ≠ 0 by omega)
      obtain ⟨g₂, rfl⟩ := Nat.exists_eq_succ_of_ne_zero (show f₂ ≠ 0 by omega)
      rw [natCharsAux, natCharsAux]
      congr 1
      have hlt : (m + 1) / 10 < m + 1 := Nat.div_lt_self (by omega) (by norm_num)
      exact ih ((m + 1) / 10) hlt g₁ g₂ (by omega) (by omega)

theorem natCharsAux_canon : ∀ m : ℕ,
    digitsVal (natCharsAux m m) = m ∧ (∀ c ∈ natCharsAux m m, isDigitC c = true) := by
  intro m
  induction m using Nat.strong_induction_on with
  | _ m ih =>
    cases m with
    | zero => exact ⟨rfl, by simp [natCharsAux]⟩
    | succ n =>
      have hlt : (n + 1) / 10 < n + 1 := Nat.div_lt_self (by omega) (by norm_num)
      have hstep : natCharsAux (n + 1) (n + 1) =
          natCharsAux ((n + 1) / 10) ((n + 1) / 10) ++ [digitChar ((n + 1) % 10)] := by
        rw [natCharsAux]
        congr 1
        exact natCharsAux_congr ((n + 1) / 10) n ((n + 1) / 10) (by omega) le_rfl
      obtain ⟨ihv, ihd⟩ := ih ((n + 1) / 10) hlt
      constructor
      · rw [hstep, digitsVal_append_singleton, ihv,
          digitVal_digitChar (Nat.mod_lt _ (by norm_num))]
        omega
      · rw [hstep]
        intro c hc
        rcases List.mem_append.mp hc with hc1 | hc2
        · exact ihd c hc1
        · simp at hc2
          rw [hc2]
          exact isDigitC_digitChar _

theorem natCharsAux_length : ∀ (m k : ℕ), m < 10 ^ k → (natCharsAux m m).length ≤ k := by
  intro m
  induction m using Nat.strong_induction_on with
  | _ m ih =>
    intro k hk
    cases m with
    | zero => cases k <;> simp [natCharsAux]
    | succ n =>
      have hlt : (n + 1) / 10 < n + 1 := Nat.div_lt_self (by omega) (by norm_num)
      have hstep : natCharsAux (n + 1) (n + 1) =
          natCharsAux ((n + 1) / 10) ((n + 1) / 10) ++ [digitChar ((n + 1) % 10)] := by
        rw [natCharsAux]
        congr 1
        exact natCharsAux_congr ((n + 1) / 10) n ((n + 1) / 10) (by omega) le_rfl
      obtain ⟨k2, rfl⟩ : ∃ k2, k = k2 + 1 := by
        cases k with
        | zero =>
          exfalso
          have : (10 : ℕ) ^ 0 = 1 := pow_zero 10
          omega
        | succ k2 => exact ⟨k2, rfl⟩
      have hdiv : (n + 1) / 10 < 10 ^ k2 := by
        rw [Nat.div_lt_iff_lt_mul (by norm_num)]
        calc n + 1 < 10 ^ (k2 + 1) := hk
          _ = 10 ^ k2 * 10 := by ring
      rw [hstep, List.length_append]
      have := ih ((n + 1) / 10) hlt k2 hdiv
      simp only [List.length_singleton]
      omega

theorem natChars_facts (n : ℕ) :
    digitsVal (natChars n) = n ∧ (∀ c ∈ natChars n, isDigitC c = true) ∧
      natChars n ≠ [] := by
  rw [natChars]
  split
  · rename_i h
    subst h
    exact ⟨by decide, by intro c hc; simp at hc; rw [hc]; decide, by decide⟩
  · rename_i h
    obtain ⟨hv, hd⟩ := natCharsAux_canon n
    refine ⟨hv, hd, ?_⟩
    intro hemp
    rw [hemp] at hv
    exact h (by simpa [digitsVal] using hv.symm)

theorem natChars_length {n k : ℕ} (hn : n ≠ 0) (h : n < 10 ^ k) :
    (natChars n).length ≤ k := by
  rw [natChars, if_neg hn]
  exact natCharsAux_length n k h

theorem takeWhile_digits_append (A B : List Char) (hA : ∀ c ∈ A, isDigitC c = true) :
    (A ++ B).takeWhile isDigitC = A ++ B.takeWhile isDigitC ∧
    (A ++ B).dropWhile isDigitC = B.dropWhile isDigitC := by
  induction A with
  | nil => exact ⟨rfl, rfl⟩
  | cons c A ih =>
    have hc := hA c (by simp)
    obtain ⟨iht, ihd⟩ := ih (fun x hx => hA x (by simp [hx]))
    constructor
    · simp only [List.cons_append, List.takeWhile_cons, hc, if_true]
      rw [iht]
    · simp only [List.cons_append, List.dropWhile_cons, hc, if_true]
      exact ihd

/-- A nonempty all-digit string is a `NUM` body with its digit value. -/
theorem isNumBody_of_digits (ds : List Char) (hne : ds ≠ [])
    (hd : ∀ c ∈ ds, isDigitC c = true) :
    isNumBody ds = true ∧ numBodyVal ds = (digitsVal ds : ℚ) := by
  have htd := takeWhile_digits_append ds [] hd
  rw [List.append_nil] at htd
  obtain ⟨htake, hdrop⟩ := htd
  simp only [List.takeWhile_nil, List.dropWhile_nil, List.append_nil] at htake hdrop
  constructor
  · rw [isNumBody, hdrop, htake]
    simpa using hne
  · rw [numBodyVal, hdrop, htake]

theorem isNumBody_chars {cs : List Char} (h : isNumBody cs = true) :
    ∀ c ∈ cs, isDigitC c = true ∨ c = '.' := by
  intro c hc
  rw [← List.takeWhile_append_dropWhile (p := isDigitC) (l := cs)] at hc
  rcases List.mem_append.mp hc with hc1 | hc2
  · exact Or.inl (List.mem_takeWhile_imp hc1)
  · rcases hdrop : cs.dropWhile isDigitC with _ | ⟨c0, frac⟩
    · rw [hdrop] at hc2; cases hc2
    · rw [isNumBody, hdrop] at h
      simp only [Bool.and_eq_true, Bool.or_eq_true, decide_eq_true_eq] at h
      rw [hdrop] at hc2
      rcases List.mem_cons.mp hc2 with rfl | hc3
      · exact Or.inr h.1
      · rcases h.2 with ⟨_, hfe⟩ | ⟨_, hfd⟩
        · rw [List.isEmpty_iff.mp hfe] at hc3; cases hc3
        · exact Or.inl (by simpa using List.all_eq_true.mp hfd c hc3)

theorem isNum_ne_nil {cs : List Char} (h : isNum cs = true) : cs ≠ [] := by
  intro he
  rw [he] at h
  exact absurd h (by decide)

theorem isNum_chars {cs : List Char} (h : isNum cs = true) :
    ∀ c ∈ cs, isDigitC c = true ∨ c = '.' ∨ c = '+' ∨ c = '-' := by
  cases cs with
  | nil => intro c hc; cases hc
  | cons c0 rest =>
    rw [isNum] at h
    intro c hc
    split at h
    · rename_i hsign
      simp only [Bool.or_eq_true, decide_eq_true_eq] at hsign
      rcases List.mem_cons.mp hc with rfl | hc2
      · rcases hsign with rfl | rfl
        · exact Or.inr (Or.inr (Or.inl rfl))
        · exact Or.inr (Or.inr (Or.inr rfl))
      · rcases isNumBody_chars h c hc2 with h1 | h1
        · exact Or.inl h1
        · exact Or.inr (Or.inl h1)
    · rcases isNumBody_chars h c hc with h1 | h1
      · exact Or.inl h1
      · exact Or.inr (Or.inl h1)

theorem isNum_tail_chars {cs : List Char} (h : isNum cs = true) :
    ∀ c ∈ cs.tail, isDigitC c = true ∨ c = '.' := by
  cases cs with
  | nil => intro c hc; cases hc
  | cons c0 rest =>
    rw [isNum] at h
    intro c hc
    simp only [List.tail_cons] at hc
    split at h
    · exact isNumBody_chars h c hc
    · exact isNumBody_chars h c (List.mem_cons_of_mem c0 hc)

theorem int_mul_of_den_dvd (q : ℚ) (n : ℕ) (h : (q.den : ℕ) ∣ n) :
    ∃ z : ℤ, q * (n : ℚ) = (z : ℚ) := by
  obtain ⟨m, hm⟩ := h
  refine ⟨q.num * m, ?_⟩
  subst hm
  have hden : ((q.den : ℚ)) ≠ 0 := by
    exact_mod_cast q.den_nz
  have hqd : q * (q.den : ℚ) = (q.num : ℚ) := by
    have h0 := Rat.num_div_den q
    rw [div_eq_iff hden] at h0
    exact h0.symm
  push_cast
  calc q * ((q.den : ℚ) * (m : ℚ)) = q * (q.den : ℚ) * (m : ℚ) := by ring
    _ = (q.num : ℚ) * (m : ℚ) := by rw [hqd]

theorem den_dvd_of_int_mul (q : ℚ) (L : ℕ) (z : ℤ) (h : q * (10 : ℚ) ^ L = (z : ℚ)) :
    (q.den : ℕ) ∣ 10 ^ L := by
  have h10 : ((10 : ℚ) ^ L) ≠ 0 := pow_ne_zero _ (by norm_num)
  have hq : q = (z : ℚ) / ((10 : ℚ) ^ L) := by
    rw [eq_div_iff h10]
    exact h
  have hq2 : q = Rat.divInt z ((10 : ℤ) ^ L) := by
    rw [Rat.divInt_eq_div, hq]
    norm_num
  have hd := Rat.den_dvd z ((10 : ℤ) ^ L)
  rw [← hq2] at hd
  have hd2 : ((q.den : ℤ)) ∣ ((10 ^ L : ℕ) : ℤ) := by
    push_cast
    exact hd
  exact_mod_cast hd2

theorem fract_den_dvd (a : ℚ) (L : ℕ) (h : (a.den : ℕ) ∣ 10 ^ L) :
    (((a - ⌊a⌋ : ℚ)).den : ℕ) ∣ 10 ^ L := by
  obtain ⟨z, hz⟩ := int_mul_of_den_dvd a (10 ^ L) h
  apply den_dvd_of_int_mul _ L (z - ⌊a⌋ * 10 ^ L)
  push_cast at hz ⊢
  rw [sub_mul, hz]

/-- The positive-part renderer produces a valid `NUM` body whose value is the
rendered number; its characters are digits or a dot, and it starts with a
digit. -/
theorem posNumStr_spec (a : ℚ) (ha : 0 ≤ a) (L : ℕ) (hden : (a.den : ℕ) ∣ 10 ^ L) :
    isNumBody (posNumStr a) = true ∧ numBodyVal (posNumStr a) = a ∧
    (∀ c ∈ posNumStr a, isDigitC c = true ∨ c = '.') ∧
    (∃ c0 rest, posNumStr a = c0 :: rest ∧ isDigitC c0 = true) := by
  obtain ⟨hipv, hipd, hipne⟩ := natChars_facts (⌊a⌋).toNat
  have hipq : (((⌊a⌋).toNat : ℕ) : ℚ) = (⌊a⌋ : ℚ) := by
    have := Int.toNat_of_nonneg (Int.floor_nonneg.mpr ha)
    exact_mod_cast congrArg (fun z : ℤ => (z : ℚ)) this
  by_cases hfp : a - ⌊a⌋ = 0
  · have hform : posNumStr a = natChars (⌊a⌋).toNat := by
      rw [posNumStr, if_pos hfp]
    have haq : a = (((⌊a⌋).toNat : ℕ) : ℚ) := by
      rw [hipq]
      linarith [hfp]
    obtain ⟨hb, hv⟩ := isNumBody_of_digits _ hipne hipd
    rw [hform]
    refine ⟨hb, ?_, fun c hc => Or.inl (hipd c hc), ?_⟩
    · rw [hv, hipv, ← haq]
    · rcases hshape : natChars (⌊a⌋).toNat with _ | ⟨c0, rest⟩
      · exact absurd hshape hipne
      · exact ⟨c0, rest, rfl, hipd c0 (by rw [hshape]; simp)⟩
  · have hfpnn : 0 ≤ a - ⌊a⌋ := by
      have := Int.floor_le a
      linarith
    have hfp1 : a - ⌊a⌋ < 1 := by
      have := Int.fract_lt_one a
      rwa [Int.fract] at this
    set fp : ℚ := a - ⌊a⌋ with hfpdef
    have hkd : (fp.den : ℕ) ∣ 10 ^ decExp fp.den :=
      decExp_dvd fp.den_nz (fract_den_dvd a L hden)
    set k := decExp fp.den with hkdef
    obtain ⟨z, hz⟩ := int_mul_of_den_dvd fp (10 ^ k) hkd
    push_cast at hz
    have h10pos : (0 : ℚ) < (10 : ℚ) ^ k := by positivity
    have hz0 : 0 ≤ z := by
      have : (0 : ℚ) ≤ (z : ℚ) := by
        rw [← hz]
        positivity
      exact_mod_cast this
    have hzlt : z < (10 : ℤ) ^ k := by
      have : (z : ℚ) < (10 : ℚ) ^ k := by
        rw [← hz]
        calc fp * (10 : ℚ) ^ k < 1 * (10 : ℚ) ^ k := by
              exact mul_lt_mul_of_pos_right hfp1 h10pos
          _ = (10 : ℚ) ^ k := one_mul _
      exact_mod_cast this
    have hzne : z ≠ 0 := by
      intro hzz
      rw [hzz] at hz
      push_cast at hz
      exact hfp (by
        rcases mul_eq_zero.mp hz with h1 | h1
        · exact h1
        · exact absurd h1 (ne_of_gt h10pos))
    set m : ℕ := z.toNat with hmdef
    have hmz : (m : ℤ) = z := Int.toNat_of_nonneg hz0
    have hmq : (m : ℚ) = fp * (10 : ℚ) ^ k := by
      rw [hz]
      exact_mod_cast congrArg (fun w : ℤ => (w : ℚ)) hmz
    have hmne : m ≠ 0 := by
      intro hm0
      rw [hm0] at hmz
      exact hzne (by exact_mod_cast hmz.symm)
    have hmlt : m < 10 ^ k := by
      have : (m : ℤ) < (10 : ℤ) ^ k := hmz ▸ hzlt
      exact_mod_cast this
    obtain ⟨hdv, hdd, hdne⟩ := natChars_facts m
    have hdlen : (natChars m).length ≤ k := natChars_length hmne hmlt
    have hnum : (fp * (10 : ℚ) ^ k).num = z := by
      rw [hz]
      exact Rat.num_intCast z
    have hform : posNumStr a = natChars (⌊a⌋).toNat ++ '.' ::
        (List.replicate (k - (natChars m).length) '0' ++ natChars m) := by
      rw [posNumStr, if_neg hfp]
      simp only
      rw [← hfpdef, ← hkdef, hnum, ← hmdef]
    set frac : List Char := List.replicate (k - (natChars m).length) '0' ++ natChars m
      with hfracdef
    have hfracd : ∀ c ∈ frac, isDigitC c = true := by
      intro c hc
      rcases List.mem_append.mp hc with hc1 | hc2
      · rw [List.eq_of_mem_replicate hc1]
        decide
      · exact hdd c hc2
    have hfracne : frac ≠ [] := by
      intro hfe
      rw [hfracdef] at hfe
      exact hdne (List.append_eq_nil.mp hfe).2
    have hfraclen : frac.length = k := by
      rw [hfracdef, List.length_append, List.length_replicate]
      omega
    have hfracval : digitsVal frac = m := by
      rw [hfracdef, digitsVal_replicate_zero, hdv]
    have htd := takeWhile_digits_append (natChars (⌊a⌋).toNat) ('.' :: frac) hipd
    have hdot : isDigitC '.' = false := by decide
    have htake : (natChars (⌊a⌋).toNat ++ '.' :: frac).takeWhile isDigitC =
        natChars (⌊a⌋).toNat := by
      rw [htd.1, List.takeWhile_cons, hdot]
      simp
    have hdrop : (natChars (⌊a⌋).toNat ++ '.' :: frac).dropWhile isDigitC = '.' :: frac := by
      rw [htd.2, List.dropWhile_cons, hdot]
      simp
    rw [hform]
    refine ⟨?_, ?_, ?_, ?_⟩
    · have h1 : frac.isEmpty = false := by
        rcases hfr : frac with _ | ⟨x, xs⟩
        · exact absurd hfr hfracne
        · rfl
      have h2 : frac.all isDigitC = true :=
        List.all_eq_true.mpr (fun c hc => hfracd c (by simpa using hc))
      rw [isNumBody, hdrop, htake]
      simp [h1, h2]
    · have hv : numBodyVal (natChars (⌊a⌋).toNat ++ '.' :: frac) =
          (digitsVal (natChars (⌊a⌋).toNat) : ℚ) +
            (digitsVal frac : ℚ) / (10 : ℚ) ^ frac.length := by
        rw [numBodyVal, hdrop, htake]
        simp
      rw [hv, hfracval, hfraclen, hipv, hipq]
      have hfpval : fp = (m : ℚ) / (10 : ℚ) ^ k := by
        rw [eq_div_iff (ne_of_gt h10pos)]
        exact hmq.symm
      rw [← hfpval, hfpdef]
      ring
    · intro c hc
      rcases List.mem_append.mp hc with hc1 | hc2
      · exact Or.inl (hipd c hc1)
      · rcases List.mem_cons.mp hc2 with rfl | hc3
        · exact Or.inr rfl
        · exact Or.inl (hfracd c hc3)
    · rcases hshape : natChars (⌊a⌋).toNat with _ | ⟨c0, rest⟩
      · exact absurd hshape hipne
      · refine ⟨c0, rest ++ '.' :: frac, by simp, hipd c0 (by rw [hshape]; simp)⟩

theorem posNumStr_chars (a : ℚ) : ∀ c ∈ posNumStr a, isDigitC c = true ∨ c = '.' := by
  intro c hc
  rw [posNumStr] at hc
  by_cases hfp : a - ⌊a⌋ = 0
  · rw [if_pos hfp] at hc
    exact Or.inl ((natChars_facts _).2.1 c hc)
  · rw [if_neg hfp] at hc
    simp only [List.mem_append, List.mem_cons] at hc
    rcases hc with hc1 | hc2 | hc3
    · exact Or.inl ((natChars_facts _).2.1 c hc1)
    · exact Or.inr hc2
    · rcases hc3 with hc4 | hc5
      · rw [List.eq_of_mem_replicate hc4]
        exact Or.inl (by decide)
      · exact Or.inl ((natChars_facts _).2.1 c hc5)

theorem abs_den (q : ℚ) : (|q|).den = q.den := by
  rcases abs_cases q with ⟨h1, _⟩ | ⟨h1, _⟩
  · rw [h1]
  · rw [h1, Rat.neg_den]

theorem numBodyVal_den (cs : List Char) : ∃ L, ((numBodyVal cs).den : ℕ) ∣ 10 ^ L := by
  rcases hdrop : cs.dropWhile isDigitC with _ | ⟨c, frac⟩
  · refine ⟨0, ?_⟩
    have hval : numBodyVal cs = ((digitsVal (cs.takeWhile isDigitC) : ℕ) : ℚ) := by
      rw [numBodyVal, hdrop]
    rw [hval]
    simp
  · by_cases hc : c = '.'
    · refine ⟨frac.length, ?_⟩
      have hval : numBodyVal cs = (digitsVal (cs.takeWhile isDigitC) : ℚ) +
          (digitsVal frac : ℚ) / (10 : ℚ) ^ frac.length := by
        rw [numBodyVal, hdrop]
        simp [hc]
      rw [hval]
      apply den_dvd_of_int_mul _ _
        ((digitsVal (cs.takeWhile isDigitC) : ℤ) * 10 ^ frac.length + (digitsVal frac : ℤ))
      have h10 : ((10 : ℚ) ^ frac.length) ≠ 0 := pow_ne_zero _ (by norm_num)
      push_cast
      field_simp
    · refine ⟨0, ?_⟩
      have hval : numBodyVal cs = ((digitsVal (cs.takeWhile isDigitC) : ℕ) : ℚ) := by
        rw [numBodyVal, hdrop]
        simp [hc]
      rw [hval]
      simp

theorem numVal_den (cs : List Char) : ∃ L, ((numVal cs).den : ℕ) ∣ 10 ^ L := by
  rcases cs with _ | ⟨c, rest⟩
  · rw [numVal]
    exact numBodyVal_den []
  · rw [numVal]
    by_cases h1 : c = '+'
    · rw [if_pos h1]
      exact numBodyVal_den rest
    · rw [if_neg h1]
      by_cases h2 : c = '-'
      · rw [if_pos h2]
        obtain ⟨L, hL⟩ := numBodyVal_den rest
        exact ⟨L, by rw [Rat.neg_den]; exact hL⟩
      · rw [if_neg h2]
        exact numBodyVal_den (c :: rest)

theorem isNum_false_of_tail {cs : List Char} (c : Char) (hc : c ∈ cs.tail)
    (h1 : isDigitC c = false) (h2 : c ≠ '.') : isNum cs = false := by
  rcases Bool.eq_false_or_eq_true (isNum cs) with h | h
  · rcases isNum_tail_chars h c hc with hd | hd
    · rw [hd] at h1
      cases h1
    · exact absurd hd h2
  · exact h

theorem colonSplit_none (cs : List Char) (h : ∀ c ∈ cs, c ≠ ':') :
    colonSplit cs = none := by
  induction cs with
  | nil => rfl
  | cons c rest ih =>
    rw [colonSplit, if_neg (h c (by simp)), ih (fun x hx => h x (by simp [hx]))]
    rfl

theorem colonSplit_append (l r : List Char) (h : ∀ c ∈ l, c ≠ ':') :
    colonSplit (l ++ ':' :: r) = some (l, r) := by
  induction l with
  | nil =>
    rw [List.nil_append, colonSplit, if_pos rfl]
  | cons c rest ih =>
    rw [List.cons_append, colonSplit, if_neg (h c (by simp)),
      ih (fun x hx => h x (by simp [hx]))]
    rfl

theorem rangeSplit_ne_dash (s : List Char) : ∀ (pre nb : List Char),
    (∀ c ∈ s, c ≠ '-') → isNum (pre.reverse ++ s) = true → isNum nb = true →
    rangeSplit pre (s ++ '-' :: nb) = some (pre.reverse ++ s, nb) := by
  induction s with
  | nil =>
    intro pre nb _ hpre hb
    rw [List.append_nil] at hpre
    rw [List.nil_append, List.append_nil, rangeSplit]
    rw [if_pos]
    simp only [Bool.and_eq_true, decide_eq_true_eq]
    exact ⟨⟨by trivial, hpre⟩, hb⟩
  | cons c s ih =>
    intro pre nb hs hpre hb
    have hc : c ≠ '-' := hs c (by simp)
    rw [List.cons_append, rangeSplit, if_neg]
    · have := ih (c :: pre) nb (fun x hx => hs x (by simp [hx]))
        (by simpa using hpre) hb
      rw [this]
      simp
    · simp [hc]

theorem rangeSplit_of_isNum (na nb : List Char) (ha : isNum na = true)
    (hb : isNum nb = true) : rangeSplit [] (na ++ '-' :: nb) = some (na, nb) := by
  rcases na with _ | ⟨c0, rest⟩
  · exact absurd rfl (isNum_ne_nil ha)
  · have htail : ∀ c ∈ rest, c ≠ '-' := by
      intro c hc hceq
      rcases isNum_tail_chars ha c (by simpa using hc) with h1 | h1
      · rw [hceq] at h1
        exact absurd h1 (by decide)
      · rw [hceq] at h1
        exact absurd h1 (by decide)
    have hstep : rangeSplit [] ((c0 :: rest) ++ '-' :: nb) =
        rangeSplit [c0] (rest ++ '-' :: nb) := by
      by_cases hc0 : c0 = '-'
      · rw [List.cons_append, rangeSplit, if_neg]
        simp [show isNum ([] : List Char) = false from rfl]
      · rw [List.cons_append, rangeSplit, if_neg]
        simp [hc0]
    rw [hstep]
    have := rangeSplit_ne_dash rest [c0] nb htail (by simpa using ha) hb
    rw [this]
    simp

theorem splitComma_ne_nil (t : List Char) : splitComma t ≠ [] := by
  induction t with
  | nil => simp [splitComma]
  | cons c rest ih =>
    rw [splitComma]
    split
    · simp
    · rcases h : splitComma rest with _ | ⟨t0, ts⟩
      · simp
      · simp

theorem splitComma_no_comma (t : List Char) (h : ∀ c ∈ t, c ≠ ',') :
    splitComma t = [t] := by
  induction t with
  | nil => rfl
  | cons c rest ih =>
    rw [splitComma, if_neg (h c (by simp)), ih (fun x hx => h x (by simp [hx]))]

theorem splitComma_append (t rest : List Char) (h : ∀ c ∈ t, c ≠ ',') :
    splitComma (t ++ ',' :: rest) = t :: splitComma rest := by
  induction t with
  | nil => rw [List.nil_append, splitComma, if_pos rfl]
  | cons c t2 ih =>
    rw [List.cons_append, splitComma, if_neg (h c (by simp)),
      ih (fun x hx => h x (by simp [hx]))]

theorem splitComma_joinSep (parts : List (List Char)) (hne : parts ≠ [])
    (h : ∀ p ∈ parts, ∀ c ∈ p, c ≠ ',') : splitComma (joinSep parts) = parts := by
  induction parts with
  | nil => exact absurd rfl hne
  | cons p rest ih =>
    rcases rest with _ | ⟨q, rest2⟩
    · rw [joinSep]
      exact splitComma_no_comma p (h p (by simp))
    · have hj : joinSep (p :: q :: rest2) = p ++ ',' :: joinSep (q :: rest2) := rfl
      rw [hj, splitComma_append _ _ (h p (by simp)),
        ih (by simp) (fun x hx => h x (by simp [hx]))]

theorem trimLead_eq (t : List Char) (h : ∀ c ∈ t, isSpace c = false) :
    trimLead t = t := by
  rcases t with _ | ⟨c, rest⟩
  · rfl
  · rw [trimLead, List.dropWhile_cons, h c (by simp)]
    simp

theorem trimTrail_eq (t : List Char) (h : ∀ c ∈ t, isSpace c = false) :
    trimTrail t = t := by
  rw [trimTrail]
  rcases ht : t.reverse with _ | ⟨c, cs⟩
  · simp [List.reverse_eq_nil_iff.mp ht]
  · have hcmem : c ∈ t := by
      rw [← List.mem_reverse, ht]
      simp
    rw [List.dropWhile_cons, h c hcmem]
    simp [← ht]

theorem trimInner_eq (parts : List (List Char))
    (h : ∀ p ∈ parts, ∀ c ∈ p, isSpace c = false) : trimInner parts = parts := by
  induction parts with
  | nil => rfl
  | cons t rest ih =>
    rcases rest with _ | ⟨q, rest2⟩
    · have hj : trimInner [t] = [trimLead t] := rfl
      rw [hj, trimLead_eq t (h t (by simp))]
    · have hj : trimInner (t :: q :: rest2) = trimLead (trimTrail t) :: trimInner (q :: rest2) :=
        rfl
      rw [hj, trimTrail_eq t (h t (by simp)), trimLead_eq t (h t (by simp)),
        ih (fun p hp => h p (by simp [hp]))]

theorem splitSpec_joinSep (parts : List (List Char)) (hne : parts ≠ [])
    (hc : ∀ p ∈ parts, ∀ c ∈ p, c ≠ ',')
    (hs : ∀ p ∈ parts, ∀ c ∈ p, isSpace c = false) :
    splitSpec (joinSep parts) = parts := by
  rw [splitSpec, splitComma_joinSep parts hne hc]
  rcases parts with _ | ⟨t, rest⟩
  · exact absurd rfl hne
  · rcases rest with _ | ⟨q, rest2⟩
    · rfl
    · show trimTrail t :: trimInner (q :: rest2) = t :: q :: rest2
      rw [trimTrail_eq t (hs t (by simp)), trimInner_eq _ (fun p hp => hs p (by simp [hp]))]

theorem splitSpec_ne_nil (spec : List Char) : splitSpec spec ≠ [] := by
  rw [splitSpec]
  rcases h : splitComma spec with _ | ⟨t, rest⟩
  · exact absurd h (splitComma_ne_nil spec)
  · rcases rest with _ | ⟨q, rest2⟩ <;> simp

/-- C7: round-trip failure (code bug).  The valid ascending single-segment
spec `"0.00001-2"` parses — start `float('0.00001')`, stop `int 2`, step 1 —
but `Range.__str__` renders the start through `str(float)`, which switches
to scientific notation below `1e-4`, producing the string `"1e-05-2"`; that
string fails `RANGE_SPEC_REGEX` (`NUM` has no exponent form), so parsing the
stringification of the parse raises `SyntaxError`: the stringifier's output
is not always parseable and the round-trip fails. -/
theorem C7_round_trip_failure :
    specToRanges (("0.00001-2").toList) = .ok [⟨1/100000, 2, 1⟩] ∧
    rangeListStr [(⟨1/100000, 2, 1⟩ : Range)] = ("1e-05-2").toList ∧
    specToRanges (("1e-05-2").toList) = .error (.syntaxErr (("1e-05-2").toList)) := by
  refine ⟨?_, ?_, ?_⟩
  · norm_num +decide [specToRanges, splitSpec, splitComma, trimTrail, trimLead, trimInner,
      isSpace, tokensToRanges, tokenToRange, parseRangeStr, stripTrailNl, isNum, isNumBody,
      isDigitC, colonSplit, rangeSplit, numVal, numBodyVal, digitsVal, digitVal]
  · have hlog : decExponent ((1/100000 : ℚ)) = -5 := by
      rw [decExponent, show (1/100000 : ℚ) = (10 : ℚ) ^ (-5 : ℤ) by norm_num]
      exact Int.log_zpow (by norm_num) _
    have h1 : numToStr ((1/100000 : ℚ)) = ("1e-05").toList := by
      rw [numToStr, if_neg (by norm_num), numToStrAbs,
        if_neg (by norm_num), if_pos (Or.inl (by rw [hlog]; norm_num))]
      rw [sciStr, hlog]
      rw [show ((1/100000 : ℚ) / (10 : ℚ) ^ (-5 : ℤ)) = 1 by norm_num]
      norm_num +decide [posNumStr, natChars, natCharsAux, digitChar, expDigits]
    have h2 : numToStr ((2 : ℚ)) = ("2").toList := by
      norm_num +decide [numToStr, numToStrAbs, natChars, natCharsAux, digitChar]
    simp only [one_div] at h1
    simp +decide [rangeListStr, joinSep, rangeStr, h1, h2]
  · simp +decide [specToRanges, splitSpec, splitComma, trimTrail, trimLead, trimInner,
      isSpace, tokensToRanges, tokenToRange, parseRangeStr, stripTrailNl, isNum, isNumBody,
      isDigitC, colonSplit, rangeSplit]

/-- C10: batch-mutation atomicity of `RangeList.extend`: the argument is
fully converted by `_arg_to_ranges` before the internal list is touched, so
the call either appends the complete converted list or propagates the
conversion error with the collection unchanged. -/
theorem C10_extend_atomicity (ranges : List Range) (arg : RArg) :
    (∃ rs, argToRanges arg = .ok rs ∧ rangeListExtend ranges arg = .ok (ranges ++ rs)) ∨
    (∃ e, argToRanges arg = .error e ∧ rangeListExtend ranges arg = .error e) := by
  rw [rangeListExtend]
  cases h : argToRanges arg with
  | ok rs => exact Or.inl ⟨rs, rfl, rfl⟩
  | error e => exact Or.inr ⟨e, rfl, rfl⟩

end OpenRangeSpec
